import Mathlib

/-
Verification development for the `man-handler` manual-processing pipeline.

The definitions below are a shallow embedding of the Python sources:
  * `backend/language_detection.py` (section grouping and selection),
  * `backend/ocr_extraction.py` (grounding-tag parsing, coordinate
    rescaling, tag cleaning, per-page and range extraction),
  * `backend/main.py` (background-job orchestrator, status polling,
    TTL cleanup).

Conventions used throughout:
  * Python `str` values are embedded as `List Char` (`String` is used
    where only whole-string equality matters).
  * Python `float` arithmetic is embedded as exact rational (`ℚ`)
    arithmetic; `int(x)` (truncation toward zero) is `int_trunc`.
  * Python `dict`s are embedded as association lists with unique keys;
    lookups take the first matching key, as `dict` semantics guarantee.
  * Fallible Python code (code that may raise) returns `Except String α`;
    exception payloads are the `str(exc)` messages.
-/

namespace ManHandler

/-! ## §1  backend/language_detection.py -/

/-- `TRANSLATION_EASE_RANKING` from `language_detection.py` (lower = easier
to translate to English). -/
def TRANSLATION_EASE_RANKING : List (String × ℤ) :=
  [("en", 0), ("nl", 1), ("de", 2), ("da", 3), ("sv", 4), ("no", 5),
   ("fr", 6), ("es", 7), ("pt", 8), ("it", 9), ("ro", 10), ("pl", 11),
   ("cs", 12), ("ru", 13), ("tr", 14), ("ar", 15), ("zh", 16), ("ja", 17),
   ("ko", 18)]

/-- `TRANSLATION_EASE_RANKING.get(lang, 999)`: unknown languages get the
`999` penalty. -/
def easeRank (lang : String) : ℤ :=
  ((TRANSLATION_EASE_RANKING.lookup lang).getD 999)

/-- A language section as built by `group_consecutive_pages`: a Python dict
with keys `language`, `start_page`, `end_page`, `page_count`.  Page fields
are `ℤ` because Python integer arithmetic (e.g. `end_page - start_page`)
never truncates. -/
structure LangSection where
  language : String
  start_page : ℤ
  end_page : ℤ
  page_count : ℤ
deriving Repr, DecidableEq

/-- Dictionary access `languages[page_num]` on the page → language map,
embedded as first-match association-list lookup (keys are unique in a
Python dict, so the default is never reached on real inputs). -/
def dictGet (languages : List (Nat × String)) (p : Nat) : String :=
  (languages.lookup p).getD ""

/-- `sorted(languages.keys())`. -/
def sortedKeys (languages : List (Nat × String)) : List Nat :=
  (languages.map Prod.fst).mergeSort (fun a b => decide (a ≤ b))

/-- The loop of `group_consecutive_pages` after the first sampled page has
initialised `current_lang` / `current_start`.  On a language change the
outgoing section ends one page before the new section's first sampled page
(`end_page = sorted_pages[i] - 1`, `page_count = end_page - start + 1`);
the final section ends at `total_pages - 1` with
`page_count = total_pages - current_start`, exactly as in the source. -/
def groupAux (f : Nat → String) (total_pages : ℤ) (curLang : String)
    (curStart : Nat) : List Nat → List LangSection
  | [] => [⟨curLang, (curStart : ℤ), total_pages - 1, total_pages - (curStart : ℤ)⟩]
  | p :: ps =>
    if f p = curLang then
      groupAux f total_pages curLang curStart ps
    else
      ⟨curLang, (curStart : ℤ), (p : ℤ) - 1, (p : ℤ) - (curStart : ℤ)⟩ ::
        groupAux f total_pages (f p) p ps

/-- `group_consecutive_pages(languages, total_pages)` from
`language_detection.py`: iterate sampled pages in ascending order, starting
a new section whenever the detected language changes. -/
def group_consecutive_pages (languages : List (Nat × String))
    (total_pages : ℤ) : List LangSection :=
  match sortedKeys languages with
  | [] => []
  | p :: ps => groupAux (dictGet languages) total_pages (dictGet languages p) p ps

/-- The tuple key of `score_section` inside `select_best_language_section`:
`(ease rank, -page_count)`. -/
def score_section (s : LangSection) : ℤ × ℤ :=
  (easeRank s.language, -s.page_count)

/-- Python's lexicographic `<` on the 2-tuples returned by `score_section`. -/
def scoreLt (a b : ℤ × ℤ) : Prop :=
  a.1 < b.1 ∨ (a.1 = b.1 ∧ a.2 < b.2)

instance : DecidablePred (fun p : (ℤ × ℤ) × ℤ × ℤ => scoreLt p.1 p.2) :=
  fun _ => by unfold scoreLt; infer_instance

instance scoreLtDec (a b : ℤ × ℤ) : Decidable (scoreLt a b) := by
  unfold scoreLt; infer_instance

/-- `select_best_language_section(sections)` from `language_detection.py`.
`max(english_sections, key=page_count)` keeps the first maximum (Python
`max` replaces the running best only on a strictly larger key), and
`min(sections, key=score_section)` keeps the first minimum (Python `min`
replaces only on a strictly smaller key); the folds below implement exactly
that. -/
def select_best_language_section (sections : List LangSection) :
    Option LangSection :=
  if sections = [] then none
  else
    let english_sections := sections.filter (fun s => s.language = "en")
    match english_sections with
    | e :: es =>
      some (es.foldl (fun b a => if b.page_count < a.page_count then a else b) e)
    | [] =>
      match sections with
      | [] => none
      | x :: xs =>
        some (xs.foldl
          (fun b a => if scoreLt (score_section a) (score_section b) then a else b) x)

/-! ## §2  backend/ocr_extraction.py — grounding-tag parsing and cleaning

The regex patterns of the source are implemented directly on `List Char`.
Both patterns are deterministic once greedy repetition is resolved by
maximal munch, because every repetition class (`\w+`, `\d+`, `\s*`,
`[^>]+`) excludes the character that must follow it, so backtracking can
never produce an alternative match (argued case by case in the docstrings
below).  Character classes follow Python `re` on ASCII text. -/

/-- Python `\w` on ASCII text. -/
def isWordChar (c : Char) : Bool := c.isAlphanum || c = '_'

/-- Python `\d` (ASCII digits). -/
def isDigitChar (c : Char) : Bool := c.isDigit

/-- Python `\s` on ASCII text. -/
def isSpaceChar (c : Char) : Bool :=
  c = ' ' || c = '\t' || c = '\n' || c = '\r' || c = '\x0b' || c = '\x0c'

/-- `\s*`: greedy whitespace skip. -/
def dropSpaces (l : List Char) : List Char := l.dropWhile isSpaceChar

/-- Match a literal string at the head and return the rest. -/
def litM : List Char → List Char → Option (List Char)
  | [], l => some l
  | _ :: _, [] => none
  | c :: cs, d :: ds => if d = c then litM cs ds else none

/-- Greedy `\w+` capture: maximal word-character run, which must be
non-empty.  Exact because the regex continues with `<`, not a word
character. -/
def takeWord (l : List Char) : Option (List Char × List Char) :=
  match l.takeWhile isWordChar with
  | [] => none
  | w => some (w, l.dropWhile isWordChar)

/-- Greedy `\d+` capture (maximal digit run, non-empty). Exact because the
regex continues with `,` or `]`, never a digit. -/
def takeDigits (l : List Char) : Option (List Char × List Char) :=
  match l.takeWhile isDigitChar with
  | [] => none
  | w => some (w, l.dropWhile isDigitChar)

/-- `int()` of a matched digit string. -/
def digitsVal (w : List Char) : ℤ :=
  w.foldl (fun acc c => 10 * acc + ((c.toNat : ℤ) - 48)) 0

/-- Captures of one match of the grounding-annotation regex
`<\|ref\|>(\w+)<\|/ref\|><\|det\|>\[\[(\d+),\s*(\d+),\s*(\d+),\s*(\d+)\]\]<\|/det\|>`:
the element type and the four (already `int()`-converted) coordinates. -/
structure AnnotMatch where
  ty : List Char
  x1 : ℤ
  y1 : ℤ
  x2 : ℤ
  y2 : ℤ
deriving Repr, DecidableEq

/-- Try the annotation regex at the current position; on success return the
captures and the remainder of the input after the match.  The greedy
repetitions are resolved by maximal munch, which coincides with Python
`re` semantics here (see section header). -/
def matchAnnotAt (l : List Char) : Option (AnnotMatch × List Char) :=
  (litM "<|ref|>".data l).bind fun r0 =>
  (takeWord r0).bind fun tw =>
  (litM "<|/ref|><|det|>[[".data tw.2).bind fun r2 =>
  (takeDigits r2).bind fun t1 =>
  (litM ",".data t1.2).bind fun r4 =>
  (takeDigits (dropSpaces r4)).bind fun t2 =>
  (litM ",".data t2.2).bind fun r6 =>
  (takeDigits (dropSpaces r6)).bind fun t3 =>
  (litM ",".data t3.2).bind fun r8 =>
  (takeDigits (dropSpaces r8)).bind fun t4 =>
  (litM "]]<|/det|>".data t4.2).map fun r10 =>
  (⟨tw.1, digitsVal t1.1, digitsVal t2.1, digitsVal t3.1, digitsVal t4.1⟩, r10)

theorem litM_length {pat l r : List Char} (h : litM pat l = some r) :
    r.length + pat.length = l.length := by
  induction pat generalizing l with
  | nil => simp [litM] at h; simp [h]
  | cons c cs ih =>
    cases l with
    | nil => simp [litM] at h
    | cons d ds =>
      by_cases hd : d = c
      · simp [litM, hd] at h
        have := ih h
        simp [List.length_cons]
        omega
      · simp [litM, hd] at h

theorem dropWhile_length_le (p : Char → Bool) (l : List Char) :
    (l.dropWhile p).length ≤ l.length :=
  (@List.dropWhile_sublist Char l p).length_le

theorem takeWord_length {l w r : List Char} (h : takeWord l = some (w, r)) :
    r.length ≤ l.length := by
  unfold takeWord at h
  rcases hl : l.takeWhile isWordChar with _ | ⟨c, cs⟩ <;> rw [hl] at h
  · simp at h
  · simp at h
    rw [← h.2]
    exact dropWhile_length_le _ _

theorem takeDigits_length {l w r : List Char} (h : takeDigits l = some (w, r)) :
    r.length ≤ l.length := by
  unfold takeDigits at h
  rcases hl : l.takeWhile isDigitChar with _ | ⟨c, cs⟩ <;> rw [hl] at h
  · simp at h
  · simp at h
    rw [← h.2]
    exact dropWhile_length_le _ _

theorem dropSpaces_length_le (l : List Char) : (dropSpaces l).length ≤ l.length :=
  dropWhile_length_le _ _

theorem litM_le {pat l r : List Char} (h : litM pat l = some r) :
    r.length ≤ l.length := by
  have := litM_length h
  omega

theorem matchAnnotAt_length {l : List Char} {m : AnnotMatch} {rest : List Char}
    (h : matchAnnotAt l = some (m, rest)) : rest.length + 7 ≤ l.length := by
  unfold matchAnnotAt at h
  simp only [Option.bind_eq_some, Option.map_eq_some'] at h
  obtain ⟨r0, h0, tw, h1, r2, h2, t1, h3, r4, h4, t2, h5, r6, h6, t3, h7,
    r8, h8, t4, h9, r10, h10, hfin⟩ := h
  have hl0 : r0.length + 7 = l.length := by
    have := litM_length h0
    simpa using this
  have e1 := takeWord_length h1
  have e2 := litM_le h2
  have e3 := takeDigits_length h3
  have e4 := litM_le h4
  have e5 := takeDigits_length h5
  have e6 := litM_le h6
  have e7 := takeDigits_length h7
  have e8 := litM_le h8
  have e9 := takeDigits_length h9
  have e10 := litM_le h10
  have d5 : (dropSpaces r4).length ≤ r4.length := dropSpaces_length_le r4
  have d7 : (dropSpaces r6).length ≤ r6.length := dropSpaces_length_le r6
  have d9 : (dropSpaces r8).length ≤ r8.length := dropSpaces_length_le r8
  have hr : rest = r10 := (congrArg Prod.snd hfin).symm
  subst hr
  omega


/-- `re.finditer` of the annotation pattern: scan left to right, emitting
non-overlapping leftmost matches and resuming after each match. -/
def findAnnots : List Char → List AnnotMatch
  | [] => []
  | c :: cs =>
    match h : matchAnnotAt (c :: cs) with
    | some (m, rest) => m :: findAnnots rest
    | none => findAnnots cs
termination_by l => l.length
decreasing_by
  · have := matchAnnotAt_length h
    simp at this ⊢
    omega
  · simp

/-- `int()` truncation toward zero on the exact rationals standing in for
Python floats. -/
def int_trunc (q : ℚ) : ℤ := if 0 ≤ q then ⌊q⌋ else ⌈q⌉

/-- `calculate_ollama_scale(original_width, original_height, model_size)`
from `ocr_extraction.py` (callers pass the default `model_size = 1000`):
`(original_width / model_size, original_height / model_size)`. -/
def calculate_ollama_scale (original_width original_height : ℤ)
    (model_size : ℤ) : ℚ × ℚ :=
  ((original_width : ℚ) / (model_size : ℚ),
   (original_height : ℚ) / (model_size : ℚ))

/-- One parsed element of `parse_grounding_output`: a dict with keys
`type`, `coords`, `index`, `y_position`. -/
structure GroundingElement where
  ty : List Char
  coords : List ℤ
  index : ℤ
  y_position : ℤ
deriving Repr, DecidableEq

/-- The renumbering loop `for idx, elem in enumerate(elements, 1):
elem["index"] = idx` that runs after sorting. -/
def renumber (i : ℤ) : List GroundingElement → List GroundingElement
  | [] => []
  | e :: es => { e with index := i } :: renumber (i + 1) es

/-- `parse_grounding_output(grounding_text, scale_x, scale_y)` from
`ocr_extraction.py`: find all annotation matches, keep those whose type is
`image`/`figure` (case-insensitively), scale the coordinates with `int()`
truncation, sort stably by top-edge `y`, and renumber 1-based after
sorting.  The provisional index stored before sorting is
`len([e for e in elements if e.type lowered in [image, figure]]) + 1`;
since every stored element passes that filter, it equals (position + 1) in
the pre-sort list, which is how it is computed here. -/
def parse_grounding_output (grounding_text : List Char)
    (scale_x scale_y : ℚ) : List GroundingElement :=
  let kept := (findAnnots grounding_text).filter fun m =>
    (m.ty.map Char.toLower) = "image".data || (m.ty.map Char.toLower) = "figure".data
  let elements := kept.mapIdx fun i m =>
    { ty := m.ty
      coords := [int_trunc ((m.x1 : ℚ) * scale_x), int_trunc ((m.y1 : ℚ) * scale_y),
                 int_trunc ((m.x2 : ℚ) * scale_x), int_trunc ((m.y2 : ℚ) * scale_y)]
      index := (i : ℤ) + 1
      y_position := int_trunc ((m.y1 : ℚ) * scale_y) : GroundingElement }
  let sorted := elements.mergeSort fun a b => decide (a.y_position ≤ b.y_position)
  renumber 1 sorted

/-- First `re.sub` pass of `clean_grounding_tags`: remove every
leftmost non-overlapping match of the annotation pattern followed by its
greedy trailing `\s*`. -/
def removeAnnots : List Char → List Char
  | [] => []
  | c :: cs =>
    match h : matchAnnotAt (c :: cs) with
    | some (_, rest) => removeAnnots (dropSpaces rest)
    | none => c :: removeAnnots cs
termination_by l => l.length
decreasing_by
  · have h1 := matchAnnotAt_length h
    have h2 := dropSpaces_length_le rest
    simp at h1 ⊢
    omega
  · simp

/-- Try `<\|[^>]+\|>` at the current position; on success return the
remainder after the match.  After the literal `<|`, `[^>]+` must run up to
the character just before the first `>` (it cannot contain `>`), and the
closing `\|>` forces that run to end with `|` and the next character to be
that `>`; so the unique candidate is the maximal `≠ '>'` run, checked
below. -/
def matchTagAt : List Char → Option (List Char)
  | c1 :: c2 :: cs =>
    if c1 = '<' ∧ c2 = '|' then
      let run := cs.takeWhile fun c => c ≠ '>'
      if 2 ≤ run.length ∧ run.getLast? = some '|' then
        match cs.dropWhile (fun c => c ≠ '>') with
        | '>' :: rest2 => some rest2
        | _ => none
      else none
    else none
  | _ => none

theorem matchTagAt_length {l rest : List Char} (h : matchTagAt l = some rest) :
    rest.length + 3 ≤ l.length := by
  match l with
  | [] => simp [matchTagAt] at h
  | [c1] => simp [matchTagAt] at h
  | c1 :: c2 :: cs =>
    unfold matchTagAt at h
    by_cases hc : c1 = '<' ∧ c2 = '|'
    · simp only [hc, if_true] at h
      by_cases hrun : 2 ≤ (cs.takeWhile fun c => c ≠ '>').length ∧
          (cs.takeWhile fun c => c ≠ '>').getLast? = some '|'
      · simp only [hrun, if_true] at h
        rcases hd : cs.dropWhile (fun c => c ≠ '>') with _ | ⟨d, ds⟩ <;>
          rw [hd] at h
        · simp at h
        · by_cases hdg : d = '>'
          · subst hdg
            simp at h
            subst h
            have hlen : (cs.takeWhile fun c => c ≠ '>').length +
                (cs.dropWhile fun c => c ≠ '>').length = cs.length := by
              rw [← List.length_append, List.takeWhile_append_dropWhile]
            rw [hd] at hlen
            simp [List.length_cons] at hlen ⊢
            omega
          · simp [hdg] at h
      · simp only [hrun, if_false] at h
        exact absurd h (by simp)
    · simp only [hc, if_false] at h
      exact absurd h (by simp)

/-- Second `re.sub` pass of `clean_grounding_tags`: remove every leftmost
non-overlapping match of `<\|[^>]+\|>`. -/
def removeTags : List Char → List Char
  | [] => []
  | c :: cs =>
    match h : matchTagAt (c :: cs) with
    | some rest => removeTags rest
    | none => c :: removeTags cs
termination_by l => l.length
decreasing_by
  · have := matchTagAt_length h
    simp at this ⊢
    omega
  · simp

/-- Python `str.strip()`: drop whitespace from both ends. -/
def pyStrip (l : List Char) : List Char :=
  ((l.dropWhile isSpaceChar).reverse.dropWhile isSpaceChar).reverse

/-- `clean_grounding_tags(text)` from `ocr_extraction.py`: the two `re.sub`
passes followed by `.strip()`. -/
def clean_grounding_tags (text : List Char) : List Char :=
  pyStrip (removeTags (removeAnnots text))

/-! ## §3  backend/ocr_extraction.py — per-page and range extraction

External effects (PyMuPDF rendering, the Ollama OCR call, PIL image size
and cropping) are supplied by an oracle indexed by page number.  Inside
`extract_page_with_ocr` the only fallible step that is *not* caught by the
source is the OCR model call (`ocr_page_with_grounding`, whose
`ollama.chat` may raise); `extract_page_as_image` catches all its own
exceptions and returns `False`, and `extract_image_region` catches all its
own exceptions and returns `False`.  The temporary page render is deleted
in a `finally` block, which has no effect on the returned value and is not
modelled.  The progress callback only appends log lines (its exceptions
are swallowed) and cannot change the returned list; it is modelled at the
orchestrator level (§4). -/

structure OcrOracle where
  /-- Outcome of `extract_page_as_image` for a page (it catches its own
  exceptions and returns a `bool`). -/
  render_ok : ℤ → Bool
  /-- Outcome of `ocr_page_with_grounding` for a page: the raw model
  output, or a raised exception. -/
  ocr : ℤ → Except String (List Char)
  /-- Rendered image pixel width for a page (`Image.open(...).width`). -/
  width : ℤ → ℤ
  /-- Rendered image pixel height for a page. -/
  height : ℤ → ℤ
  /-- Outcome of `extract_image_region` for (page, element index). -/
  crop_ok : ℤ → ℤ → Bool

/-- `extract_page_with_ocr` result dict: clean text, 0-indexed page
number, and saved figure files.  A filename
`page_{page_num+1:03d}_image_{index}.png` is represented by the pair
`(page_num + 1, index)` that determines it. -/
structure OCRPageResult where
  text : List Char
  page_num : ℤ
  image_files : List (ℤ × ℤ)
deriving Repr, DecidableEq

/-- `extract_page_with_ocr(pdf_path, page_num, images_dir)`: `none` when
the page render fails; propagates an OCR-call exception; otherwise parses
the grounding output, crops the figures (a failed crop is skipped), cleans
the text and returns the page dict. -/
def extract_page_with_ocr (o : OcrOracle) (page_num : ℤ) :
    Except String (Option OCRPageResult) :=
  if o.render_ok page_num = false then Except.ok none
  else
    match o.ocr page_num with
    | Except.error e => Except.error e
    | Except.ok raw =>
      let sc := calculate_ollama_scale (o.width page_num) (o.height page_num) 1000
      let elems := parse_grounding_output raw sc.1 sc.2
      let image_files :=
        (elems.filter fun e => o.crop_ok page_num e.index).map
          fun e => (page_num + 1, e.index)
      Except.ok (some
        { text := clean_grounding_tags raw
          page_num := page_num
          image_files := image_files })

/-- `if cancellation_check and cancellation_check()`: the per-page
cancellation probe of the extraction loop. -/
def cancelCheck (cancel : Option (ℤ → Bool)) (p : ℤ) : Bool :=
  match cancel with
  | some f => f p
  | none => false

/-- The page loop of `extract_pdf_with_ocr`, iterating `n` pages starting
at page `p`: check the cancellation callback before each page; a `none`
page result (failed render) is logged and skipped; an exception aborts the
whole loop (there is no `try` around the per-page call). -/
def extractGo (o : OcrOracle) (cancel : Option (ℤ → Bool)) :
    ℤ → Nat → Except String (List OCRPageResult)
  | _, 0 => Except.ok []
  | p, n + 1 =>
    if cancelCheck cancel p then Except.ok []
    else
      match extract_page_with_ocr o p with
      | Except.error e => Except.error e
      | Except.ok none => extractGo o cancel (p + 1) n
      | Except.ok (some r) =>
        match extractGo o cancel (p + 1) n with
        | Except.error e => Except.error e
        | Except.ok rest => Except.ok (r :: rest)

/-- `extract_pdf_with_ocr(pdf_path, images_dir, progress_callback,
cancellation_check, start_page, end_page)`: `open_ok`/`page_count` model
the initial `fitz.open`/`len(doc)` probe (failure to open returns `[]`);
the inclusive range is clipped to the document length, a start past the
end returns `[]` with a warning, and the loop runs over
`range(start_page, actual_end_page + 1)`. -/
def extract_pdf_with_ocr (o : OcrOracle) (open_ok : Bool) (page_count : ℤ)
    (cancel : Option (ℤ → Bool)) (start_page : ℤ) (end_page : Option ℤ) :
    Except String (List OCRPageResult) :=
  if open_ok = false then Except.ok []
  else
    let actual_end_page := min (end_page.getD (page_count - 1)) (page_count - 1)
    if page_count ≤ start_page then Except.ok []
    else extractGo o cancel start_page (actual_end_page + 1 - start_page).toNat

/-! ## §4  backend/main.py — background-job orchestrator

The two module-level dicts `processing_status` and `cancellation_flags`
(plus the durable per-token metadata file written by
`manual_processing.update_meta`) form the shared state.  All mutations of
the job dict happen under `status_lock`; the embedding is sequential, so
the lock discipline shows up only as the `if token in processing_status`
guards that every locked read-modify-write performs.  External
collaborator calls made by `process_manual_background` are supplied by an
oracle: the section-detector result, the outcome of the
`extract_pdf_with_ocr` call (its returned list or raised exception)
together with the log lines its progress callback appended, the
`detect_language` fallback result (that function catches its own
exceptions and returns `"Unknown"`), the outcome of
`generate_reference_md` (may raise), the outcome of the best-effort
`update_meta` write (its exception is swallowed), and the values of the
four `check_cancelled()` reads at the orchestrator's checkpoints (the
per-page reads inside the extraction loop are part of the extraction
outcome). -/

/-- `get_language_name(lang_code)` from `language_detection.py`. -/
def get_language_name (lang_code : String) : String :=
  (([("en", "English"), ("es", "Spanish"), ("fr", "French"),
     ("de", "German"), ("it", "Italian"), ("pt", "Portuguese"),
     ("nl", "Dutch"), ("ru", "Russian"), ("zh", "Chinese"),
     ("ja", "Japanese"), ("ko", "Korean"), ("ar", "Arabic"),
     ("tr", "Turkish"), ("pl", "Polish"), ("cs", "Czech"),
     ("da", "Danish"), ("sv", "Swedish"), ("no", "Norwegian"),
     ("ro", "Romanian")] : List (String × String)).lookup lang_code).getD
    lang_code.toUpper

/-- One entry of the `processing_status` dict.  The optional fields are
dict keys that exist only after the pipeline writes them. -/
structure JobRecord where
  status : String
  stage : String
  logs : List String
  created_at : ℚ
  detected_language : Option String
  translated : Option Bool
  output_filename : Option String
deriving Repr, DecidableEq

/-- The durable per-token metadata written by
`manual_processing.update_meta` (a JSON dict; only the keys relevant to
the processing pipeline are modelled, each `Option` because a key may be
absent).  `translated` is included so that claims about persisting the
translation flag can be stated; the pipeline's `update_meta` call passes
only `translated_filename` and `detected_language`. -/
structure MetaRecord where
  translated_filename : Option String
  detected_language : Option String
  translated : Option Bool
deriving Repr, DecidableEq

/-- The shared mutable state: the two module-level dicts of `main.py` and
the durable token metadata store. -/
structure ServerState where
  processing_status : List (String × JobRecord)
  cancellation_flags : List (String × Bool)
  meta : List (String × MetaRecord)
deriving Repr, DecidableEq

/-- Dict read: first entry with the key. -/
def mapGet {α : Type} (m : List (String × α)) (k : String) : Option α :=
  (m.find? fun p => p.1 = k).map Prod.snd

/-- Dict write `m[k] = v`: replace an existing entry, else append. -/
def mapSet {α : Type} (m : List (String × α)) (k : String) (v : α) :
    List (String × α) :=
  if (m.find? fun p => p.1 = k).isSome then
    m.map fun p => if p.1 = k then (k, v) else p
  else m ++ [(k, v)]

/-- Dict delete `del m[k]`. -/
def mapDel {α : Type} (m : List (String × α)) (k : String) :
    List (String × α) :=
  m.filter fun p => ¬ p.1 = k

/-- A locked `if token in processing_status: <mutate the record>` block,
the shape of every status mutation in `process_manual_background`. -/
def updJob (st : ServerState) (token : String) (f : JobRecord → JobRecord) :
    ServerState :=
  match mapGet st.processing_status token with
  | none => st
  | some r =>
    { st with processing_status := mapSet st.processing_status token (f r) }

/-- `add_log(message)` from `process_manual_background`. -/
def add_log (st : ServerState) (token : String) (msg : String) : ServerState :=
  updJob st token fun r => { r with logs := r.logs ++ [msg] }

/-- A locked `processing_status[token]["stage"] = s` write. -/
def set_stage (st : ServerState) (token : String) (s : String) : ServerState :=
  updJob st token fun r => { r with stage := s }

/-- The cancellation exit taken at every checkpoint: log, then set
status and stage to `cancelled`. -/
def cancelExit (st : ServerState) (token : String) : ServerState :=
  updJob (add_log st token "[INFO] Processing cancelled by user") token
    fun r => { r with status := "cancelled", stage := "cancelled" }

/-- `manual_processing.update_meta(token, translated_filename=...,
detected_language=...)`: load the token's metadata, merge the two keys,
write back.  A missing metadata file raises `FileNotFoundError`, which the
caller swallows, leaving the state unchanged. -/
def update_meta_write (st : ServerState) (token : String) (fname : String)
    (lang : String) : ServerState :=
  match mapGet st.meta token with
  | none => st
  | some m =>
    { st with
      meta := mapSet st.meta token
        { m with translated_filename := some fname,
                 detected_language := some lang } }

/-- Oracle for the external calls of one `process_manual_background` run
(see the section header). -/
structure OrchOracle where
  section_info : Option (String × ℤ × ℤ)
  extraction : Except String (List OCRPageResult)
  extraction_logs : List String
  detect_language_result : String
  generate_result : Except String Unit
  update_meta_ok : Bool
  c0 : Bool
  c1 : Bool
  c2 : Bool
  c3 : Bool
  reference_name : String

/-- Python `str.lower()` on the (ASCII) language strings, implemented by
structural recursion over the character list so that concrete runs reduce
in the kernel (`String.toLower` recurses on byte positions instead). -/
def strToLower (s : String) : String :=
  ⟨s.data.map Char.toLower⟩

/-- The `detected_language` value after the language-scan stage: the
selected section's language, or `"unknown"` when no section was found. -/
def orchDetected0 (o : OrchOracle) : String :=
  match o.section_info with
  | some (l, _, _) => l
  | none => "unknown"

/-- The final `detected_language` of a run that reaches the
language-detection stage: the pre-scanned language, or the
`detect_language` fallback result when the pre-scan yielded `"unknown"`. -/
def orchDetected (o : OrchOracle) : String :=
  if orchDetected0 o = "unknown" then o.detect_language_result
  else orchDetected0 o

/-- `is_english = detected_language.lower() in ["en", "english"]`. -/
def orchIsEnglish (o : OrchOracle) : Prop :=
  strToLower (orchDetected o) = "en" ∨ strToLower (orchDetected o) = "english"

instance orchIsEnglishDec (o : OrchOracle) : Decidable (orchIsEnglish o) := by
  unfold orchIsEnglish
  infer_instance

/-- The `try` body of `process_manual_background` (source lines 242–376):
returns the state after the body together with the message of the
exception that escaped the body, if any (`none` on a normal or cancelled
return).  The two raising sites are the `ValueError("OCR extraction
returned no pages")` and an exception from `generate_reference_md`; an
exception propagating out of `extract_pdf_with_ocr` also escapes here. -/
def orchTry (o : OrchOracle) (token : String) (st0 : ServerState) :
    ServerState × Option String :=
  let st := add_log st0 token "[INFO] Scanning PDF for language sections..."
  let st := set_stage st token "language_scan"
  if o.c0 then (cancelExit st token, none)
  else
    let detected0 : String := orchDetected0 o
    let st :=
      match o.section_info with
      | some (l, sp, ep) =>
        let st := add_log st token
          s!"[OK] Found {get_language_name l} section (pages {sp + 1}-{ep + 1})"
        add_log st token
          s!"[INFO] Will extract {ep - sp + 1} pages instead of entire PDF"
      | none =>
        add_log st token
          "[INFO] No clear language sections detected, will extract all pages"
    let st := add_log st token "[INFO] Starting OCR extraction..."
    let st := set_stage st token "ocr_extraction"
    let st := o.extraction_logs.foldl (fun s m => add_log s token m) st
    match o.extraction with
    | Except.error e => (st, some e)
    | Except.ok results =>
      if o.c1 then (cancelExit st token, none)
      else if results = [] then (st, some "OCR extraction returned no pages")
      else
        let st := add_log st token s!"[OK] Extracted {results.length} pages"
        let st := set_stage st token "ocr_complete"
        let detRes :=
          if detected0 = "unknown" then
            let st := add_log st token
              "[INFO] Detecting language from extracted content..."
            let st := set_stage st token "language_detection"
            let dl := o.detect_language_result
            (dl, add_log st token s!"[OK] Detected language: {dl}")
          else
            (detected0, add_log st token
              s!"[INFO] Using pre-scanned language: {get_language_name detected0}")
        let detected_language := detRes.1
        let st := detRes.2
        if o.c2 then (cancelExit st token, none)
        else
          let is_english :=
            strToLower detected_language = "en" ∨
              strToLower detected_language = "english"
          let st :=
            if is_english then
              set_stage (add_log st token
                "[INFO] Text already in English, generating reference markdown...")
                token "generating_reference"
            else
              set_stage (add_log st token
                s!"[INFO] Translating from {get_language_name detected_language} to English...")
                token "translating"
          match o.generate_result with
          | Except.error e => (st, some e)
          | Except.ok _ =>
            if o.c3 then (cancelExit st token, none)
            else
              let st := add_log st token "[OK] Reference markdown generated"
              let st := updJob st token fun r =>
                { r with
                  stage := "complete"
                  status := "complete"
                  detected_language := some detected_language
                  translated := some (decide ¬ is_english)
                  output_filename := some o.reference_name }
              let st :=
                if o.update_meta_ok then
                  update_meta_write st token o.reference_name detected_language
                else st
              (st, none)

/-- `process_manual_background(token, ...)`: run the `try` body; route an
escaped exception to the `error` terminal state (status, stage and
`[ERROR] ...` log line, all under the `if token in processing_status`
guard); in all cases the `finally` block deletes the token's cancellation
flag. -/
def process_manual_background (o : OrchOracle) (token : String)
    (st0 : ServerState) : ServerState :=
  let res := orchTry o token st0
  let st :=
    match res.2 with
    | none => res.1
    | some e =>
      updJob res.1 token fun r =>
        { r with
          status := "error"
          stage := "error"
          logs := r.logs ++ [s!"[ERROR] {e}"] }
  { st with cancellation_flags := mapDel st.cancellation_flags token }

/-- `STATUS_TTL_SECONDS` from `main.py`. -/
def STATUS_TTL_SECONDS : ℚ := 3600

/-- `cleanup_expired_statuses()` from `main.py`: delete every job entry
whose age exceeds the TTL, and the cancellation flag of each deleted
token. -/
def cleanup_expired_statuses (now : ℚ) (st : ServerState) : ServerState :=
  let expired := (st.processing_status.filter fun p =>
    decide (STATUS_TTL_SECONDS < now - p.2.created_at)).map Prod.fst
  { st with
    processing_status := st.processing_status.filter fun p =>
      ¬ STATUS_TTL_SECONDS < now - p.2.created_at
    cancellation_flags := st.cancellation_flags.filter fun q =>
      ¬ expired.contains q.1 }

/-- Response of the status-poll endpoint: either the token's record, or
the synthetic "not found" dict `{status: error, logs: [...], stage:
error}`. -/
inductive PollResponse
  | record (r : JobRecord)
  | synthetic (status : String) (logs : List String) (stage : String)
deriving Repr, DecidableEq

/-- `get_processing_status(token)` from `main.py`: lazily sweep expired
entries, then return the token's record, or the synthetic "not found"
record when the token is absent. -/
def get_processing_status (now : ℚ) (token : String) (st : ServerState) :
    PollResponse × ServerState :=
  let st1 := cleanup_expired_statuses now st
  match mapGet st1.processing_status token with
  | none =>
    (PollResponse.synthetic "error"
      ["[ERROR] Processing status not found. Token may have expired."] "error",
     st1)
  | some r => (PollResponse.record r, st1)

/-! ## Concrete instances used by the claim theorems below -/

/-- Oracle for the C10 witness: rendering fails on page 1 only, the model
always returns empty output. -/
def oW10 : OcrOracle :=
  ⟨fun p => decide (p ≠ 1), fun _ => Except.ok [], fun _ => 800,
   fun _ => 600, fun _ _ => true⟩

/-- Oracle for the C2 counterexample: the model call raises on page 0 and
succeeds on every other page. -/
def oC2 : OcrOracle :=
  ⟨fun _ => true,
   fun p => if p = 0 then Except.error "boom" else Except.ok [],
   fun _ => 1000, fun _ => 1000, fun _ _ => true⟩

/-- Oracle for the C2 witness: rendering fails on page 1 only. -/
def oC2w : OcrOracle :=
  ⟨fun p => decide (p ≠ 1), fun _ => Except.ok [], fun _ => 1000,
   fun _ => 1000, fun _ _ => true⟩

/-- The spec's sample annotation: a model-space box at
`(500, 500, 1000, 1000)`. -/
def sampleAnnot : List Char :=
  "<|ref|>image<|/ref|><|det|>[[500,500,1000,1000]]<|/det|>".data

/-- The character sequence of one complete well-formed grounding
annotation `<|ref|>TYPE<|/ref|><|det|>[[d1,d2,d3,d4]]<|/det|>`. -/
def annotChars (ty d1 d2 d3 d4 : List Char) : List Char :=
  "<|ref|>".data ++ ty ++ "<|/ref|><|det|>[[".data ++ d1 ++ [','] ++ d2 ++
    [','] ++ d3 ++ [','] ++ d4 ++ "]]<|/det|>".data

/-- Raw OCR outputs in which `<` occurs only as the first character of a
complete, well-formed grounding annotation: interleavings of `<`-free
text with full annotations.  (The counterexample shows the cleaning claim
fails without a restriction of this kind.) -/
inductive CleanShape : List Char → Prop
  | nil : CleanShape []
  | chr (c : Char) (l : List Char) : c ≠ '<' → CleanShape l →
      CleanShape (c :: l)
  | ann (ty d1 d2 d3 d4 l : List Char) :
      ty ≠ [] → (∀ c ∈ ty, isWordChar c = true) →
      d1 ≠ [] → (∀ c ∈ d1, isDigitChar c = true) →
      d2 ≠ [] → (∀ c ∈ d2, isDigitChar c = true) →
      d3 ≠ [] → (∀ c ∈ d3, isDigitChar c = true) →
      d4 ≠ [] → (∀ c ∈ d4, isDigitChar c = true) →
      CleanShape l → CleanShape (annotChars ty d1 d2 d3 d4 ++ l)

/-- A concrete well-shaped OCR output for the C9 witness: text, one full
annotation, more text. -/
def c9sample : List Char :=
  'a' :: (annotChars "image".data "10".data "20".data "30".data "40".data ++
    (' ' :: ('b' :: [])))

/-- Oracle for the C1 counterexample: extraction returns zero pages and
cancellation is observed at the post-extraction checkpoint. -/
def oC1 : OrchOracle :=
  ⟨none, Except.ok [], [], "x", Except.ok (), true, false, true, false,
   false, "ref.md"⟩

/-- Initial state for the C1 counterexample and witness. -/
def stC1 : ServerState :=
  ⟨[("t", ⟨"processing", "starting", [], 0, none, none, none⟩)],
   [("t", false)], []⟩

/-- Oracle for the C1 witness: empty extraction, no cancellation. -/
def oC1w : OrchOracle :=
  ⟨none, Except.ok [], [], "x", Except.ok (), true, false, false, false,
   false, "ref.md"⟩

/-- Oracle for the C6 counterexample/witness: a German section is found,
extraction returns one page, generation succeeds, nothing is cancelled. -/
def oC6 : OrchOracle :=
  ⟨some ("de", 0, 4), Except.ok [⟨[], 0, []⟩], [], "x", Except.ok (), true,
   false, false, false, false, "ref.md"⟩

/-- Initial state for the C6 counterexample/witness: the durable metadata
for the token exists and has no `translated` key. -/
def stC6 : ServerState :=
  ⟨[("t", ⟨"processing", "starting", [], 0, none, none, none⟩)],
   [("t", false)], [("t", ⟨none, none, none⟩)]⟩

/-! ## Shared lemmas about the dict embedding -/

theorem find?_key_eq {α : Type} {m : List (String × α)} {k : String} {q : String × α}
    (h : m.find? (fun p => p.1 = k) = some q) : q.1 = k := by
  have := List.find?_some h
  simpa using this

theorem mapGet_some_elim {α : Type} {m : List (String × α)} {k : String} {v : α}
    (h : mapGet m k = some v) :
    ∃ q, m.find? (fun p => p.1 = k) = some q ∧ q.1 = k ∧ q.2 = v ∧ q ∈ m := by
  unfold mapGet at h
  rcases hf : m.find? (fun p => p.1 = k) with _ | q <;> rw [hf] at h
  · simp at h
  · exact ⟨q, hf, find?_key_eq hf, by simpa using h, List.mem_of_find?_eq_some hf⟩

theorem entry_unique {α : Type} {m : List (String × α)}
    (hnd : (m.map Prod.fst).Nodup) {p q : String × α}
    (hp : p ∈ m) (hq : q ∈ m) (hk : p.1 = q.1) : p = q := by
  induction m with
  | nil => simp at hp
  | cons x xs ih =>
    simp only [List.map_cons, List.nodup_cons] at hnd
    rcases List.mem_cons.mp hp with hpx | hpxs <;>
      rcases List.mem_cons.mp hq with hqx | hqxs
    · rw [hpx, hqx]
    · exact absurd (hk ▸ (List.mem_map_of_mem Prod.fst hqxs)) (hpx ▸ hnd.1)
    · exact absurd (hk ▸ (List.mem_map_of_mem Prod.fst hpxs)) (by
        rw [hqx]; exact fun hc => hnd.1 (by simpa using hc))
    · exact ih hnd.2 hpxs hqxs

theorem mapGet_filter_none {α : Type} {m : List (String × α)} {k : String}
    (keep : String × α → Bool)
    (h : ∀ p ∈ m, p.1 = k → keep p = false) :
    mapGet (m.filter keep) k = none := by
  unfold mapGet
  rw [List.find?_eq_none.mpr]
  · rfl
  · intro p hp
    rcases List.mem_filter.mp hp with ⟨hpm, hkeep⟩
    intro hk
    rw [h p hpm (by simpa using hk)] at hkeep
    simp at hkeep

/-! ## Claim C7 — TTL expiry on poll -/

/-- C7: polling a token whose creation timestamp is older than the TTL
(3600 s) returns the synthetic "not found" error record, and after that
poll both the job entry and any cancellation flag for the token are gone
from the shared maps. -/
theorem claim_C7_ttl_poll (now : ℚ) (token : String) (st : ServerState)
    (hnd : (st.processing_status.map Prod.fst).Nodup)
    {r : JobRecord} (hr : mapGet st.processing_status token = some r)
    (hexp : STATUS_TTL_SECONDS < now - r.created_at) :
    (get_processing_status now token st).1 =
      PollResponse.synthetic "error"
        ["[ERROR] Processing status not found. Token may have expired."]
        "error" ∧
    mapGet (get_processing_status now token st).2.processing_status token = none ∧
    mapGet (get_processing_status now token st).2.cancellation_flags token = none := by
  obtain ⟨q, hfind, hqk, hqv, hqmem⟩ := mapGet_some_elim hr
  have hps : mapGet (cleanup_expired_statuses now st).processing_status token
      = none := by
    apply mapGet_filter_none
    intro p hp hpk
    have hpq : p = q := entry_unique hnd hp hqmem (by rw [hpk, hqk])
    subst hpq
    rw [hqv]
    simp only [decide_eq_false_iff_not, Decidable.not_not]
    linarith
  have hflags : mapGet (cleanup_expired_statuses now st).cancellation_flags token
      = none := by
    apply mapGet_filter_none
    intro p hp hpk
    have hqex : token ∈ (st.processing_status.filter fun p =>
        decide (STATUS_TTL_SECONDS < now - p.2.created_at)).map Prod.fst := by
      refine List.mem_map.mpr ⟨q, List.mem_filter.mpr ⟨hqmem, ?_⟩, hqk⟩
      rw [hqv]
      simp only [decide_eq_true_eq]
      linarith
    simp only [hpk]
    simpa using hqex
  have hmain : get_processing_status now token st =
      (PollResponse.synthetic "error"
        ["[ERROR] Processing status not found. Token may have expired."]
        "error", cleanup_expired_statuses now st) := by
    simp only [get_processing_status]
    rw [hps]
  rw [hmain]
  exact ⟨rfl, hps, hflags⟩

/-- Witness for C7 at a concrete expired token. -/
theorem claim_C7_ttl_poll_witness :
    (get_processing_status 4000 "t"
      ⟨[("t", ⟨"processing", "starting", [], 0, none, none, none⟩)],
       [("t", false)], []⟩).1 =
      PollResponse.synthetic "error"
        ["[ERROR] Processing status not found. Token may have expired."]
        "error" ∧
    mapGet (get_processing_status 4000 "t"
      ⟨[("t", ⟨"processing", "starting", [], 0, none, none, none⟩)],
       [("t", false)], []⟩).2.processing_status "t" = none ∧
    mapGet (get_processing_status 4000 "t"
      ⟨[("t", ⟨"processing", "starting", [], 0, none, none, none⟩)],
       [("t", false)], []⟩).2.cancellation_flags "t" = none :=
  @claim_C7_ttl_poll 4000 "t"
    ⟨[("t", ⟨"processing", "starting", [], 0, none, none, none⟩)],
     [("t", false)], []⟩ (by decide)
    ⟨"processing", "starting", [], 0, none, none, none⟩ (by decide)
    (by norm_num [STATUS_TTL_SECONDS])

/-! ## Claim C4 — best-section selection -/

theorem scoreLt_trans {a b c : ℤ × ℤ} (h1 : scoreLt a b) (h2 : scoreLt b c) :
    scoreLt a c := by
  unfold scoreLt at *
  rcases h1 with h1 | ⟨h1, h1'⟩ <;> rcases h2 with h2 | ⟨h2, h2'⟩
  · exact Or.inl (h1.trans h2)
  · exact Or.inl (h2 ▸ h1)
  · exact Or.inl (h1 ▸ h2)
  · exact Or.inr ⟨h1.trans h2, h1'.trans h2'⟩

theorem scoreLt_irrefl (a : ℤ × ℤ) : ¬ scoreLt a a := by
  unfold scoreLt
  omega

theorem scoreLt_resolve {a b : ℤ × ℤ} (h : ¬ scoreLt a b) :
    scoreLt b a ∨ b = a := by
  unfold scoreLt at *
  rcases a with ⟨a1, a2⟩
  rcases b with ⟨b1, b2⟩
  simp only [Prod.mk.injEq]
  omega

/-- The `max(english_sections, key=page_count)` fold keeps the first
element attaining the maximal page count. -/
theorem foldMaxPC_spec (es : List LangSection) (e : LangSection) :
    (es.foldl (fun b a => if b.page_count < a.page_count then a else b) e)
        ∈ e :: es ∧
    (∀ t ∈ e :: es, t.page_count ≤
      (es.foldl (fun b a => if b.page_count < a.page_count then a else b) e).page_count) ∧
    (∃ pre post, e :: es =
        pre ++ (es.foldl (fun b a => if b.page_count < a.page_count then a else b) e)
          :: post ∧
      ∀ t ∈ pre, t.page_count <
        (es.foldl (fun b a => if b.page_count < a.page_count then a else b) e).page_count) := by
  induction es generalizing e with
  | nil =>
    refine ⟨by simp, by simp, [], [], by simp, by simp⟩
  | cons a es ih =>
    by_cases hlt : e.page_count < a.page_count
    · have step : (a :: es).foldl
          (fun b a => if b.page_count < a.page_count then a else b) e =
          es.foldl (fun b a => if b.page_count < a.page_count then a else b) a := by
        simp [List.foldl_cons, hlt]
      obtain ⟨ihmem, ihub, pre', post', ihdec, ihpre⟩ := ih a
      rw [step]
      refine ⟨List.mem_cons_of_mem _ ihmem, ?_, e :: pre', post', ?_, ?_⟩
      · intro t ht
        rcases List.mem_cons.mp ht with rfl | ht
        · exact le_of_lt (lt_of_lt_of_le hlt (ihub a (by simp)))
        · exact ihub t ht
      · simpa using ihdec
      · intro t ht
        rcases List.mem_cons.mp ht with rfl | ht
        · exact lt_of_lt_of_le hlt (ihub a (by simp))
        · exact ihpre t ht
    · have step : (a :: es).foldl
          (fun b a => if b.page_count < a.page_count then a else b) e =
          es.foldl (fun b a => if b.page_count < a.page_count then a else b) e := by
        simp [List.foldl_cons, hlt]
      obtain ⟨ihmem, ihub, pre', post', ihdec, ihpre⟩ := ih e
      rw [step]
      refine ⟨?_, ?_, ?_⟩
      · rcases List.mem_cons.mp ihmem with hm | hm
        · exact List.mem_cons.mpr (Or.inl hm)
        · exact List.mem_cons_of_mem _ (List.mem_cons_of_mem _ hm)
      · intro t ht
        rcases List.mem_cons.mp ht with rfl | ht
        · exact ihub t (by simp)
        · rcases List.mem_cons.mp ht with rfl | ht
          · exact le_trans (le_of_not_lt hlt) (ihub e (by simp))
          · exact ihub t (by simp [ht])
      · rcases pre' with _ | ⟨y, pre''⟩
        · simp only [List.nil_append] at ihdec
          rw [List.cons.injEq] at ihdec
          refine ⟨[], a :: es, ?_, by simp⟩
          rw [List.nil_append, ← ihdec.1]
        · rw [List.cons_append, List.cons.injEq] at ihdec
          obtain ⟨rfl, hes⟩ := ihdec
          refine ⟨e :: a :: pre'', post',
            by rw [List.cons_append, List.cons_append, ← hes], ?_⟩
          intro t ht
          have hepre : e.page_count <
              (es.foldl (fun b a => if b.page_count < a.page_count then a else b)
                e).page_count := ihpre e (by simp)
          rcases List.mem_cons.mp ht with rfl | ht
          · exact hepre
          · rcases List.mem_cons.mp ht with rfl | ht
            · exact lt_of_le_of_lt (le_of_not_lt hlt) hepre
            · exact ihpre t (by simp [ht])

/-- The `min(sections, key=score_section)` fold keeps the first element
attaining the lexicographically minimal `(ease rank, -page_count)` score. -/
theorem foldMinScore_spec (xs : List LangSection) (x : LangSection) :
    (xs.foldl
      (fun b a => if scoreLt (score_section a) (score_section b) then a else b) x)
        ∈ x :: xs ∧
    (∀ t ∈ x :: xs, ¬ scoreLt (score_section t)
      (score_section (xs.foldl
        (fun b a => if scoreLt (score_section a) (score_section b) then a else b) x))) ∧
    (∃ pre post, x :: xs =
        pre ++ (xs.foldl
          (fun b a => if scoreLt (score_section a) (score_section b) then a else b) x)
          :: post ∧
      ∀ t ∈ pre, scoreLt
        (score_section (xs.foldl
          (fun b a => if scoreLt (score_section a) (score_section b) then a else b) x))
        (score_section t)) := by
  induction xs generalizing x with
  | nil =>
    refine ⟨by simp, ?_, [], [], by simp, by simp⟩
    intro t ht
    rcases List.mem_cons.mp ht with rfl | ht
    · exact scoreLt_irrefl _
    · simp at ht
  | cons a xs ih =>
    by_cases hlt : scoreLt (score_section a) (score_section x)
    · have step : (a :: xs).foldl
          (fun b a => if scoreLt (score_section a) (score_section b) then a else b) x =
          xs.foldl
            (fun b a => if scoreLt (score_section a) (score_section b) then a else b) a := by
        simp [List.foldl_cons, hlt]
      obtain ⟨ihmem, ihub, pre', post', ihdec, ihpre⟩ := ih a
      rw [step]
      have hma : ¬ scoreLt (score_section a) (score_section
          (xs.foldl (fun b a =>
            if scoreLt (score_section a) (score_section b) then a else b) a)) :=
        ihub a (by simp)
      have hmx : scoreLt (score_section
          (xs.foldl (fun b a =>
            if scoreLt (score_section a) (score_section b) then a else b) a))
          (score_section x) := by
        rcases scoreLt_resolve hma with hr | hr
        · exact scoreLt_trans hr hlt
        · rwa [hr]
      refine ⟨List.mem_cons_of_mem _ ihmem, ?_, x :: pre', post', ?_, ?_⟩
      · intro t ht
        rcases List.mem_cons.mp ht with rfl | ht
        · intro hc
          exact scoreLt_irrefl _ (scoreLt_trans hmx hc)
        · exact ihub t ht
      · simpa using ihdec
      · intro t ht
        rcases List.mem_cons.mp ht with rfl | ht
        · exact hmx
        · exact ihpre t ht
    · have step : (a :: xs).foldl
          (fun b a => if scoreLt (score_section a) (score_section b) then a else b) x =
          xs.foldl
            (fun b a => if scoreLt (score_section a) (score_section b) then a else b) x := by
        simp [List.foldl_cons, hlt]
      obtain ⟨ihmem, ihub, pre', post', ihdec, ihpre⟩ := ih x
      rw [step]
      have hmx : ¬ scoreLt (score_section x) (score_section
          (xs.foldl (fun b a =>
            if scoreLt (score_section a) (score_section b) then a else b) x)) :=
        ihub x (by simp)
      refine ⟨?_, ?_, ?_⟩
      · rcases List.mem_cons.mp ihmem with hm | hm
        · exact List.mem_cons.mpr (Or.inl hm)
        · exact List.mem_cons_of_mem _ (List.mem_cons_of_mem _ hm)
      · intro t ht
        rcases List.mem_cons.mp ht with rfl | ht
        · exact ihub t (by simp)
        · rcases List.mem_cons.mp ht with rfl | ht
          · intro hc
            rcases scoreLt_resolve hlt with hr | hr
            · exact hmx (scoreLt_trans hr hc)
            · exact hmx (by rwa [hr])
          · exact ihub t (by simp [ht])
      · rcases pre' with _ | ⟨y, pre''⟩
        · simp only [List.nil_append] at ihdec
          rw [List.cons.injEq] at ihdec
          refine ⟨[], a :: xs, ?_, by simp⟩
          rw [List.nil_append, ← ihdec.1]
        · rw [List.cons_append, List.cons.injEq] at ihdec
          obtain ⟨rfl, hes⟩ := ihdec
          have hepre : scoreLt (score_section
              (xs.foldl (fun b a =>
                if scoreLt (score_section a) (score_section b) then a else b) x))
              (score_section x) := ihpre x (by simp)
          refine ⟨x :: a :: pre'', post',
            by rw [List.cons_append, List.cons_append, ← hes], ?_⟩
          intro t ht
          rcases List.mem_cons.mp ht with rfl | ht
          · exact hepre
          · rcases List.mem_cons.mp ht with rfl | ht
            · rcases scoreLt_resolve hlt with hr | hr
              · exact scoreLt_trans hepre hr
              · rw [← hr]
                exact hepre
            · exact ihpre t (by simp [ht])

/-- C4: selection over language sections.  (1) The empty list selects
nothing.  (2) If an English section exists, selection returns the first
English section of maximal page count (membership, maximality over
English sections, and first-encountered-on-ties over the English
sublist).  (3) Otherwise it returns the first section minimizing the pair
(translation-ease rank, −page_count) lexicographically.  (4–5) Every
ranked language has rank < 999 and a language absent from the table gets
the maximal 999 penalty. -/
theorem claim_C4_selection (sections : List LangSection) :
    (sections = [] → select_best_language_section sections = none) ∧
    ((∃ e ∈ sections, e.language = "en") →
      ∃ s, select_best_language_section sections = some s ∧ s ∈ sections ∧
        s.language = "en" ∧
        (∀ t ∈ sections, t.language = "en" → t.page_count ≤ s.page_count) ∧
        (∃ pre post,
          sections.filter (fun t => t.language = "en") = pre ++ s :: post ∧
          ∀ t ∈ pre, t.page_count < s.page_count)) ∧
    (sections ≠ [] → (∀ e ∈ sections, e.language ≠ "en") →
      ∃ s, select_best_language_section sections = some s ∧ s ∈ sections ∧
        (∀ t ∈ sections, ¬ scoreLt (score_section t) (score_section s)) ∧
        (∃ pre post, sections = pre ++ s :: post ∧
          ∀ t ∈ pre, scoreLt (score_section s) (score_section t))) ∧
    (∀ p ∈ TRANSLATION_EASE_RANKING, p.2 < 999) ∧
    (∀ lang, TRANSLATION_EASE_RANKING.lookup lang = none →
      easeRank lang = 999) := by
  refine ⟨?_, ?_, ?_, by decide, ?_⟩
  · intro h
    subst h
    rfl
  · rintro ⟨e', he', hlang⟩
    have hne : sections ≠ [] := List.ne_nil_of_mem he'
    have hmemf : e' ∈ sections.filter (fun t => t.language = "en") :=
      List.mem_filter.mpr ⟨he', by simp [hlang]⟩
    rcases hf : sections.filter (fun t => t.language = "en") with _ | ⟨e, es⟩
    · rw [hf] at hmemf
      simp at hmemf
    · obtain ⟨ihmem, ihub, pre, post, ihdec, ihpre⟩ := foldMaxPC_spec es e
      refine ⟨_, ?_, ?_, ?_, ?_, pre, post, ?_, ihpre⟩
      · simp only [select_best_language_section, if_neg hne]
        rw [hf]
      · have : (es.foldl (fun b a => if b.page_count < a.page_count then a else b) e)
            ∈ sections.filter (fun t => t.language = "en") := by
          rw [hf]
          exact ihmem
        exact (List.mem_filter.mp this).1
      · have : (es.foldl (fun b a => if b.page_count < a.page_count then a else b) e)
            ∈ sections.filter (fun t => t.language = "en") := by
          rw [hf]
          exact ihmem
        have := (List.mem_filter.mp this).2
        simpa using this
      · intro t ht htl
        have : t ∈ sections.filter (fun t => t.language = "en") :=
          List.mem_filter.mpr ⟨ht, by simp [htl]⟩
        rw [hf] at this
        exact ihub t this
      · rw [hf]
        exact ihdec
  · intro hne hnoen
    have hf : sections.filter (fun t => t.language = "en") = [] := by
      rw [List.filter_eq_nil_iff]
      intro a ha
      simpa using hnoen a ha
    rcases hs : sections with _ | ⟨x, xs⟩
    · exact absurd hs hne
    · subst hs
      obtain ⟨ihmem, ihub, pre, post, ihdec, ihpre⟩ := foldMinScore_spec xs x
      refine ⟨_, ?_, ihmem, ihub, pre, post, ihdec, ihpre⟩
      simp only [select_best_language_section, if_neg hne]
      rw [hf]
  · intro lang h
    unfold easeRank
    rw [h]
    rfl

/-- Witness for C4: the spec's own example — a 10-page German section
beats a 40-page Arabic section (ease rank 2 < 15). -/
theorem claim_C4_selection_witness :
    ∃ s, select_best_language_section
        [⟨"de", 0, 9, 10⟩, ⟨"ar", 10, 49, 40⟩] = some s ∧
      s ∈ [(⟨"de", 0, 9, 10⟩ : LangSection), ⟨"ar", 10, 49, 40⟩] ∧
      (∀ t ∈ [(⟨"de", 0, 9, 10⟩ : LangSection), ⟨"ar", 10, 49, 40⟩],
        ¬ scoreLt (score_section t) (score_section s)) ∧
      (∃ pre post, [(⟨"de", 0, 9, 10⟩ : LangSection), ⟨"ar", 10, 49, 40⟩] =
          pre ++ s :: post ∧
        ∀ t ∈ pre, scoreLt (score_section s) (score_section t)) :=
  (claim_C4_selection [⟨"de", 0, 9, 10⟩, ⟨"ar", 10, 49, 40⟩]).2.2.1
    (by decide) (by decide)

/-! ## Claim C3 — section grouping invariants -/

theorem groupAux_spec (f : Nat → String) (total_pages : ℤ) (curLang : String)
    (curStart : Nat) (ps : List Nat)
    (hstart : (curStart : ℤ) < total_pages)
    (hps : ∀ p ∈ ps, curStart < p ∧ (p : ℤ) < total_pages)
    (hsorted : ps.Pairwise (· < ·)) :
    (∃ hd tl, groupAux f total_pages curLang curStart ps = hd :: tl ∧
      hd.start_page = (curStart : ℤ)) ∧
    List.Chain' (fun a b => b.start_page = a.end_page + 1)
      (groupAux f total_pages curLang curStart ps) ∧
    (∀ s ∈ groupAux f total_pages curLang curStart ps,
      s.start_page ≤ s.end_page ∧
      s.page_count = s.end_page - s.start_page + 1) ∧
    (groupAux f total_pages curLang curStart ps).getLast?.map
        (fun s => s.end_page) = some (total_pages - 1) := by
  induction ps generalizing curLang curStart with
  | nil =>
    refine ⟨⟨_, [], rfl, rfl⟩, by simp [groupAux], ?_, by simp [groupAux]⟩
    intro s hs
    simp only [groupAux, List.mem_singleton] at hs
    subst hs
    constructor
    · simp
      omega
    · simp
      ring
  | cons p ps ih =>
    by_cases heq : f p = curLang
    · have step : groupAux f total_pages curLang curStart (p :: ps) =
          groupAux f total_pages curLang curStart ps := by
        simp [groupAux, heq]
      rw [step]
      exact ih curLang curStart hstart
        (fun q hq => (hps q (List.mem_cons_of_mem _ hq)))
        (List.Pairwise.sublist (List.sublist_cons_self p ps) hsorted)
    · have hp := hps p (List.mem_cons_self _ _)
      have hpslt : ∀ q ∈ ps, p < q ∧ (q : ℤ) < total_pages := by
        intro q hq
        exact ⟨(List.pairwise_cons.mp hsorted).1 q hq,
          (hps q (List.mem_cons_of_mem _ hq)).2⟩
      obtain ⟨ihhd, ihchain, ihmem, ihlast⟩ :=
        ih (f p) p hp.2 hpslt (List.pairwise_cons.mp hsorted).2
      have step : groupAux f total_pages curLang curStart (p :: ps) =
          ⟨curLang, (curStart : ℤ), (p : ℤ) - 1, (p : ℤ) - (curStart : ℤ)⟩ ::
            groupAux f total_pages (f p) p ps := by
        simp [groupAux, heq]
      obtain ⟨hd', tl', hS', hhd'⟩ := ihhd
      rw [step]
      refine ⟨⟨_, _, rfl, rfl⟩, ?_, ?_, ?_⟩
      · rw [hS']
        rw [hS'] at ihchain
        exact List.Chain'.cons (by rw [hhd']; ring) ihchain
      · intro s hs
        rcases List.mem_cons.mp hs with rfl | hs
        · constructor
          · simp
            omega
          · simp
            ring
        · exact ihmem s hs
      · rw [hS'] at ihlast ⊢
        rw [List.getLast?_cons_cons]
        exact ihlast

/-- Sections linked by `next.start = cur.end + 1` and individually
non-degenerate are pairwise disjoint (every earlier section ends strictly
before a later one starts). -/
theorem sections_pairwise_disjoint :
    ∀ {S : List LangSection},
    List.Chain' (fun a b => b.start_page = a.end_page + 1) S →
    (∀ s ∈ S, s.start_page ≤ s.end_page) →
    S.Pairwise (fun a b => a.end_page < b.start_page) := by
  intro S
  induction S with
  | nil => intro _ _; simp
  | cons s S ih =>
    intro hchain hmem
    have htail := (List.chain'_cons'.mp hchain).2
    refine List.pairwise_cons.mpr ⟨?_, ih htail (fun t ht =>
      hmem t (List.mem_cons_of_mem _ ht))⟩
    intro t ht
    rcases S with _ | ⟨u, S'⟩
    · simp at ht
    · have hadj : u.start_page = s.end_page + 1 :=
        (List.chain'_cons.mp hchain).1
      rcases List.mem_cons.mp ht with rfl | ht'
      · omega
      · have hpw := ih htail (fun v hv => hmem v (List.mem_cons_of_mem _ hv))
        have hut : u.end_page < t.start_page :=
          (List.pairwise_cons.mp hpw).1 t ht'
        have huu : u.start_page ≤ u.end_page :=
          hmem u (by simp)
        omega

/-- Chained non-degenerate sections cover exactly the interval from the
first section's start to the last section's end. -/
theorem sections_cover :
    ∀ (tl : List LangSection) (hd : LangSection) (E : ℤ),
    List.Chain' (fun a b => b.start_page = a.end_page + 1) (hd :: tl) →
    (∀ s ∈ hd :: tl, s.start_page ≤ s.end_page) →
    (hd :: tl).getLast?.map (fun s => s.end_page) = some E →
    ∀ q : ℤ, (hd.start_page ≤ q ∧ q ≤ E) ↔
      ∃ s ∈ hd :: tl, s.start_page ≤ q ∧ q ≤ s.end_page := by
  intro tl
  induction tl with
  | nil =>
    intro hd E _ _ hlast q
    simp only [List.getLast?_singleton, Option.map_some'] at hlast
    have hE : hd.end_page = E := by injection hlast
    subst hE
    constructor
    · intro hq
      exact ⟨hd, by simp, hq.1, hq.2⟩
    · rintro ⟨s, hs, h1, h2⟩
      simp only [List.mem_singleton] at hs
      subst hs
      exact ⟨h1, h2⟩
  | cons t tl ih =>
    intro hd E hchain hmem hlast q
    have hadj : t.start_page = hd.end_page + 1 := (List.chain'_cons.mp hchain).1
    have hchain' := (List.chain'_cons.mp hchain).2
    have hmem' : ∀ s ∈ t :: tl, s.start_page ≤ s.end_page :=
      fun s hs => hmem s (List.mem_cons_of_mem _ hs)
    have hlast' : (t :: tl).getLast?.map (fun s => s.end_page) = some E := by
      rw [List.getLast?_cons_cons] at hlast
      exact hlast
    have ihq := ih t E hchain' hmem' hlast'
    have htE : t.end_page ≤ E := by
      have := (ihq t.end_page).mpr ⟨t, by simp, hmem' t (by simp), le_refl _⟩
      exact this.2
    have hhd : hd.start_page ≤ hd.end_page := hmem hd (by simp)
    constructor
    · rintro ⟨h1, h2⟩
      by_cases hcase : q ≤ hd.end_page
      · exact ⟨hd, by simp, h1, hcase⟩
      · have : t.start_page ≤ q := by omega
        obtain ⟨s, hs, hs1, hs2⟩ := (ihq q).mp ⟨this, h2⟩
        exact ⟨s, List.mem_cons_of_mem _ hs, hs1, hs2⟩
    · rintro ⟨s, hs, hs1, hs2⟩
      rcases List.mem_cons.mp hs with rfl | hs'
      · have hsE : s.end_page ≤ E := by
          have ht' := hmem' t (by simp)
          omega
        exact ⟨hs1, by omega⟩
      · have := (ihq q).mpr ⟨s, hs', hs1, hs2⟩
        have ht' := hmem' t (by simp)
        refine ⟨by omega, this.2⟩

theorem sortedKeys_perm (languages : List (Nat × String)) :
    (sortedKeys languages).Perm (languages.map Prod.fst) :=
  List.mergeSort_perm _ _

theorem sortedKeys_pairwise_lt (languages : List (Nat × String))
    (hnd : (languages.map Prod.fst).Nodup) :
    (sortedKeys languages).Pairwise (· < ·) := by
  have hle : (sortedKeys languages).Pairwise
      (fun a b : Nat => decide (a ≤ b) = true) :=
    List.sorted_mergeSort
      (by intro a b c h1 h2; simp at h1 h2 ⊢; omega)
      (by intro a b; simp; omega) _
  have hnd' : (sortedKeys languages).Nodup :=
    (sortedKeys_perm languages).nodup_iff.mpr hnd
  have := hle.and hnd'
  exact this.imp (fun {a b} hab =>
    lt_of_le_of_ne (by simpa using hab.1) hab.2)

/-- C3 (amended): for a non-empty sampled-page map whose indices all lie
below `total_pages`, grouping yields sections that are contiguous
(`next.start = cur.end + 1`), pairwise disjoint, ordered by `start_page`,
each with `start_page ≤ end_page` and
`page_count = end_page − start_page + 1`, and that cover exactly the
interval from the smallest *sampled* index `m` (not from 0) up to
`total_pages − 1`. -/
theorem claim_C3_grouping (languages : List (Nat × String)) (total_pages : ℤ)
    (hne : languages ≠ [])
    (hnd : (languages.map Prod.fst).Nodup)
    (hlt : ∀ k ∈ languages.map Prod.fst, (k : ℤ) < total_pages) :
    ∃ m : Nat, m ∈ languages.map Prod.fst ∧
      (∀ k ∈ languages.map Prod.fst, m ≤ k) ∧
      (∃ hd tl, group_consecutive_pages languages total_pages = hd :: tl ∧
        hd.start_page = (m : ℤ)) ∧
      List.Chain' (fun a b => b.start_page = a.end_page + 1)
        (group_consecutive_pages languages total_pages) ∧
      (∀ s ∈ group_consecutive_pages languages total_pages,
        s.start_page ≤ s.end_page ∧
        s.page_count = s.end_page - s.start_page + 1) ∧
      (group_consecutive_pages languages total_pages).getLast?.map
        (fun s => s.end_page) = some (total_pages - 1) ∧
      (group_consecutive_pages languages total_pages).Pairwise
        (fun a b => a.end_page < b.start_page) ∧
      (∀ q : ℤ, ((m : ℤ) ≤ q ∧ q < total_pages) ↔
        ∃ s ∈ group_consecutive_pages languages total_pages,
          s.start_page ≤ q ∧ q ≤ s.end_page) := by
  rcases hsk : sortedKeys languages with _ | ⟨p, ps⟩
  · exfalso
    have : (languages.map Prod.fst) = [] :=
      List.Perm.eq_nil (hsk ▸ sortedKeys_perm languages).symm
    exact hne (List.map_eq_nil_iff.mp this)
  · have hmemkeys : ∀ k ∈ p :: ps, k ∈ languages.map Prod.fst := by
      intro k hk
      exact (sortedKeys_perm languages).mem_iff.mp (hsk ▸ hk)
    have hpw : (p :: ps).Pairwise (· < ·) := hsk ▸ sortedKeys_pairwise_lt languages hnd
    have hS : group_consecutive_pages languages total_pages =
        groupAux (dictGet languages) total_pages (dictGet languages p) p ps := by
      unfold group_consecutive_pages
      rw [hsk]
    obtain ⟨⟨hd, tl, hconsS, hhd⟩, hchain, hmem, hlast⟩ :=
      groupAux_spec (dictGet languages) total_pages (dictGet languages p) p ps
        (hlt p (hmemkeys p (by simp)))
        (fun q hq => ⟨(List.pairwise_cons.mp hpw).1 q hq,
          hlt q (hmemkeys q (List.mem_cons_of_mem _ hq))⟩)
        (List.pairwise_cons.mp hpw).2
    rw [← hS] at hconsS hchain hmem hlast
    have hdisj := sections_pairwise_disjoint hchain (fun s hs => (hmem s hs).1)
    refine ⟨p, hmemkeys p (by simp), ?_, ⟨hd, tl, hconsS, hhd⟩, hchain, hmem,
      hlast, hdisj, ?_⟩
    · intro k hk
      have : k ∈ sortedKeys languages :=
        (sortedKeys_perm languages).mem_iff.mpr hk
      rw [hsk] at this
      rcases List.mem_cons.mp this with rfl | hkps
      · exact le_refl _
      · exact le_of_lt ((List.pairwise_cons.mp hpw).1 k hkps)
    · intro q
      have hcov := sections_cover tl hd (total_pages - 1)
        (hconsS ▸ hchain) (fun s hs => (hmem s (hconsS ▸ hs)).1)
        (hconsS ▸ hlast) q
      rw [← hconsS] at hcov
      constructor
      · rintro ⟨h1, h2⟩
        exact hcov.mp ⟨by omega, by omega⟩
      · intro hex
        have := hcov.mpr hex
        rw [hhd] at this
        exact ⟨this.1, by omega⟩

/-- Counterexample to C3 as stated: grouping `{3: en}` with 10 pages
yields a single section `[3, 9]`, which does not cover page 0, so the
sections do not cover `[0, total_pages)`; and grouping `{5: en}` with 3
total pages yields the degenerate section `(5, 2)` violating
`start_page ≤ end_page`. -/
theorem claim_C3_grouping_counterexample :
    group_consecutive_pages [(3, "en")] 10 = [⟨"en", 3, 9, 7⟩] ∧
    (¬ ∃ s ∈ group_consecutive_pages [(3, "en")] 10,
      s.start_page ≤ 0 ∧ 0 ≤ s.end_page) ∧
    group_consecutive_pages [(5, "en")] 3 = [⟨"en", 5, 2, -2⟩] ∧
    (∃ s ∈ group_consecutive_pages [(5, "en")] 3,
      ¬ s.start_page ≤ s.end_page) := by
  have h1 : group_consecutive_pages [(3, "en")] 10 = [⟨"en", 3, 9, 7⟩] := by
    unfold group_consecutive_pages sortedKeys
    rw [List.map_singleton, List.mergeSort_singleton]
    simp [groupAux, dictGet]
  have h2 : group_consecutive_pages [(5, "en")] 3 = [⟨"en", 5, 2, -2⟩] := by
    unfold group_consecutive_pages sortedKeys
    rw [List.map_singleton, List.mergeSort_singleton]
    simp [groupAux, dictGet]
  refine ⟨h1, ?_, h2, ?_⟩
  · rw [h1]
    rintro ⟨s, hs, hc1, hc2⟩
    simp only [List.mem_singleton] at hs
    subst hs
    simp at hc1
  · rw [h2]
    refine ⟨⟨"en", 5, 2, -2⟩, by simp, by norm_num⟩

/-- Witness for (amended) C3 at the concrete map `{2: fr}` with 5 pages. -/
theorem claim_C3_grouping_witness :
    ∃ m : Nat, m ∈ ([(2, "fr")] : List (Nat × String)).map Prod.fst ∧
      (∀ k ∈ ([(2, "fr")] : List (Nat × String)).map Prod.fst, m ≤ k) ∧
      (∃ hd tl, group_consecutive_pages [(2, "fr")] 5 = hd :: tl ∧
        hd.start_page = (m : ℤ)) ∧
      List.Chain' (fun a b => b.start_page = a.end_page + 1)
        (group_consecutive_pages [(2, "fr")] 5) ∧
      (∀ s ∈ group_consecutive_pages [(2, "fr")] 5,
        s.start_page ≤ s.end_page ∧
        s.page_count = s.end_page - s.start_page + 1) ∧
      (group_consecutive_pages [(2, "fr")] 5).getLast?.map
        (fun s => s.end_page) = some (5 - 1) ∧
      (group_consecutive_pages [(2, "fr")] 5).Pairwise
        (fun a b => a.end_page < b.start_page) ∧
      (∀ q : ℤ, ((m : ℤ) ≤ q ∧ q < 5) ↔
        ∃ s ∈ group_consecutive_pages [(2, "fr")] 5,
          s.start_page ≤ q ∧ q ≤ s.end_page) :=
  claim_C3_grouping [(2, "fr")] 5 (by simp) (by simp) (by decide)

/-! ## Claims C10 and C2 — range-extraction behaviour -/

theorem extract_page_page_num {o : OcrOracle} {p : ℤ} {r : OCRPageResult}
    (h : extract_page_with_ocr o p = Except.ok (some r)) : r.page_num = p := by
  unfold extract_page_with_ocr at h
  rcases hrb : o.render_ok p with _ | _ <;> rw [hrb] at h
  · simp at h
  · rcases ho : o.ocr p with e | raw <;> rw [ho] at h
    · simp at h
    · simp at h
      subst h
      rfl

theorem extractGo_spec (o : OcrOracle) (cancel : Option (ℤ → Bool)) :
    ∀ (n : Nat) (p : ℤ) (l : List OCRPageResult),
    extractGo o cancel p n = Except.ok l →
    (l.map (fun r => r.page_num)).Pairwise (· < ·) ∧
    ∀ r ∈ l, p ≤ r.page_num ∧ r.page_num ≤ p + n - 1 := by
  intro n
  induction n with
  | zero =>
    intro p l h
    simp only [extractGo, Except.ok.injEq] at h
    subst h
    simp
  | succ n ih =>
    intro p l h
    unfold extractGo at h
    by_cases hc : cancelCheck cancel p = true
    · rw [if_pos hc] at h
      simp only [Except.ok.injEq] at h
      subst h
      simp
    · rw [if_neg hc] at h
      rcases hp : extract_page_with_ocr o p with e | or <;> rw [hp] at h
      · simp at h
      · rcases or with _ | r
        · obtain ⟨hpw, hbd⟩ := ih (p + 1) l h
          refine ⟨hpw, fun r hr => ?_⟩
          have := hbd r hr
          omega
        · rcases hrec : extractGo o cancel (p + 1) n with e | rest <;>
            rw [hrec] at h
          · simp at h
          · simp only [Except.ok.injEq] at h
            subst h
            obtain ⟨hpw, hbd⟩ := ih (p + 1) rest hrec
            have hpn : r.page_num = p := extract_page_page_num hp
            refine ⟨?_, ?_⟩
            · rw [List.map_cons]
              refine List.pairwise_cons.mpr ⟨?_, hpw⟩
              intro q hq
              obtain ⟨r', hr', hq'⟩ := List.mem_map.mp hq
              have := hbd r' hr'
              rw [hpn, ← hq']
              omega
            · intro r' hr'
              rcases List.mem_cons.mp hr' with rfl | hr'
              · omega
              · have := hbd r' hr'
                omega

/-- C10: whenever range extraction returns a list (normal completion,
cancellation mid-range, or per-page render failures), the `page_num`
fields are strictly increasing and lie within the clipped inclusive range
`[start_page, min(end_page, page_count − 1)]`. -/
theorem claim_C10_range_invariant (o : OcrOracle) (open_ok : Bool)
    (page_count : ℤ) (cancel : Option (ℤ → Bool)) (start_page : ℤ)
    (end_page : Option ℤ) (l : List OCRPageResult)
    (h : extract_pdf_with_ocr o open_ok page_count cancel start_page end_page =
      Except.ok l) :
    (l.map (fun r => r.page_num)).Pairwise (· < ·) ∧
    ∀ r ∈ l, start_page ≤ r.page_num ∧
      r.page_num ≤ min (end_page.getD (page_count - 1)) (page_count - 1) := by
  unfold extract_pdf_with_ocr at h
  by_cases hopen : open_ok = false
  · rw [if_pos hopen] at h
    simp only [Except.ok.injEq] at h
    subst h
    simp
  · rw [if_neg hopen] at h
    by_cases hstart : page_count ≤ start_page
    · rw [if_pos hstart] at h
      simp only [Except.ok.injEq] at h
      subst h
      simp
    · rw [if_neg hstart] at h
      obtain ⟨hpw, hbd⟩ := extractGo_spec o cancel _ _ _ h
      refine ⟨hpw, fun r hr => ?_⟩
      have := hbd r hr
      by_cases hnn : 0 ≤ min (end_page.getD (page_count - 1)) (page_count - 1)
          + 1 - start_page
      · rw [Int.toNat_of_nonneg hnn] at this
        omega
      · have h0 : (min (end_page.getD (page_count - 1)) (page_count - 1)
            + 1 - start_page).toNat = 0 := by
          omega
        rw [h0] at this
        omega

unseal findAnnots removeAnnots removeTags List.mergeSort List.merge in
/-- Witness for C10 on a 3-page document whose middle page fails to
render. -/
theorem claim_C10_range_invariant_witness :
    ((([⟨[], 0, []⟩, ⟨[], 2, []⟩] : List OCRPageResult)).map
      (fun r => r.page_num)).Pairwise (· < ·) ∧
    ∀ r ∈ ([⟨[], 0, []⟩, ⟨[], 2, []⟩] : List OCRPageResult),
      (0 : ℤ) ≤ r.page_num ∧
      r.page_num ≤ min ((Option.none : Option ℤ).getD (3 - 1)) (3 - 1) :=
  claim_C10_range_invariant oW10 true 3 none 0 none
    [⟨[], 0, []⟩, ⟨[], 2, []⟩] rfl

theorem range_map_shift (p : ℤ) (n : Nat) :
    (List.range (n + 1)).map (fun i : ℕ => p + (i : ℤ)) =
      p :: (List.range n).map (fun i : ℕ => (p + 1) + (i : ℤ)) := by
  rw [List.range_succ_eq_map]
  simp only [List.map_cons, List.map_map, Function.comp, Nat.cast_zero, add_zero]
  congr 1
  apply List.map_congr_left
  intro a _
  simp only [Function.comp_apply]
  push_cast
  ring

theorem extractGo_all_ok (o : OcrOracle) (raw : ℤ → List Char)
    (hocr : ∀ q : ℤ, o.ocr q = Except.ok (raw q)) :
    ∀ (n : Nat) (p : ℤ),
    ∃ l, extractGo o none p n = Except.ok l ∧
      l.map (fun r => r.page_num) =
        ((List.range n).map (fun i : ℕ => p + (i : ℤ))).filter
          (fun q => o.render_ok q) := by
  intro n
  induction n with
  | zero => intro p; exact ⟨[], rfl, by simp⟩
  | succ n ih =>
    intro p
    obtain ⟨l', hl', hmap⟩ := ih (p + 1)
    have hcc : cancelCheck none p = false := rfl
    rw [range_map_shift]
    rcases hrb : o.render_ok p with _ | _
    · refine ⟨l', ?_, ?_⟩
      · unfold extractGo
        rw [if_neg (by simp [hcc])]
        have hpage : extract_page_with_ocr o p = Except.ok none := by
          unfold extract_page_with_ocr
          rw [hrb]
          simp
        rw [hpage]
        exact hl'
      · rw [List.filter_cons_of_neg (by simp [hrb])]
        exact hmap
    · have hpage : extract_page_with_ocr o p = Except.ok (some
          { text := clean_grounding_tags (raw p)
            page_num := p
            image_files :=
              ((parse_grounding_output (raw p)
                  (calculate_ollama_scale (o.width p) (o.height p) 1000).1
                  (calculate_ollama_scale (o.width p) (o.height p) 1000).2).filter
                (fun e => o.crop_ok p e.index)).map
                  (fun e => (p + 1, e.index)) }) := by
        unfold extract_page_with_ocr
        rw [hrb, hocr p]
        simp
      obtain ⟨r, hr⟩ : ∃ r, extract_page_with_ocr o p = Except.ok (some r) :=
        ⟨_, hpage⟩
      have hrp : r.page_num = p := extract_page_page_num hr
      refine ⟨r :: l', ?_, ?_⟩
      · unfold extractGo
        rw [if_neg (by simp [hcc])]
        rw [hr, hl']
      · rw [List.filter_cons_of_pos (by simp [hrb])]
        simp only [List.map_cons]
        rw [hmap, hrp]

/-- C2 (amended): when the OCR model call never raises, no per-page
failure aborts the range: the loop always returns a list, and a page is
missing from it exactly when that page's render failed — the loop
continues past every render failure.  (The unamended claim also covered
model/OCR errors; those propagate and abort the range, see the
counterexample.) -/
theorem claim_C2_per_page_failures (o : OcrOracle) (page_count : ℤ)
    (start_page : ℤ) (end_page : Option ℤ) (raw : ℤ → List Char)
    (hocr : ∀ q : ℤ, o.ocr q = Except.ok (raw q)) :
    ∃ l, extract_pdf_with_ocr o true page_count none start_page end_page =
        Except.ok l ∧
      l.map (fun r => r.page_num) =
        ((List.range
            (min (end_page.getD (page_count - 1)) (page_count - 1) + 1 -
              start_page).toNat).map
          (fun i : ℕ => start_page + (i : ℤ))).filter
            (fun q => o.render_ok q) := by
  unfold extract_pdf_with_ocr
  rw [if_neg (by simp)]
  by_cases hstart : page_count ≤ start_page
  · rw [if_pos hstart]
    refine ⟨[], rfl, ?_⟩
    have h0 : (min (end_page.getD (page_count - 1)) (page_count - 1) + 1 -
        start_page).toNat = 0 := by
      have : min (end_page.getD (page_count - 1)) (page_count - 1) ≤
          page_count - 1 := min_le_right _ _
      omega
    rw [h0]
    simp
  · rw [if_neg hstart]
    exact extractGo_all_ok o raw hocr _ start_page

unseal findAnnots removeAnnots removeTags List.mergeSort List.merge in
/-- Counterexample to C2 as stated: a model/OCR error on page 0 aborts the
whole 2-page range with an exception (no list, page 1 never delivered),
even though page 1 on its own extracts fine. -/
theorem claim_C2_counterexample :
    extract_pdf_with_ocr oC2 true 2 none 0 none = Except.error "boom" ∧
    extract_page_with_ocr oC2 1 = Except.ok (some ⟨[], 1, []⟩) :=
  ⟨rfl, rfl⟩

/-- Witness for (amended) C2: with no model errors, the 3-page range
whose middle render fails still returns a list containing exactly pages 0
and 2. -/
theorem claim_C2_per_page_failures_witness :
    ∃ l, extract_pdf_with_ocr oC2w true 3 none 0 none = Except.ok l ∧
      l.map (fun r => r.page_num) =
        ((List.range
            (min ((Option.none : Option ℤ).getD (3 - 1)) (3 - 1) + 1 -
              0).toNat).map
          (fun i : ℕ => (0 : ℤ) + (i : ℤ))).filter
            (fun q => oC2w.render_ok q) :=
  claim_C2_per_page_failures oC2w 3 0 none (fun _ => []) (fun _ => rfl)

/-! ## Claim C8 — figure indices after sorting -/

theorem renumber_length : ∀ (l : List GroundingElement) (i : ℤ),
    (renumber i l).length = l.length := by
  intro l
  induction l with
  | nil => intro i; rfl
  | cons e es ih => intro i; simp [renumber, ih]

theorem renumber_map_index : ∀ (l : List GroundingElement) (i : ℤ),
    (renumber i l).map (fun e => e.index) =
      (List.range l.length).map (fun k : ℕ => i + (k : ℤ)) := by
  intro l
  induction l with
  | nil => intro i; rfl
  | cons e es ih =>
    intro i
    rw [List.length_cons, range_map_shift]
    simp only [renumber, List.map_cons]
    rw [ih (i + 1)]

theorem renumber_map_y : ∀ (l : List GroundingElement) (i : ℤ),
    (renumber i l).map (fun e => e.y_position) =
      l.map (fun e => e.y_position) := by
  intro l
  induction l with
  | nil => intro i; rfl
  | cons e es ih =>
    intro i
    simp only [renumber, List.map_cons]
    rw [ih (i + 1)]

theorem renumber_mem_y : ∀ (l : List GroundingElement) (i : ℤ)
    (b : GroundingElement), b ∈ renumber i l →
    ∃ a ∈ l, b.y_position = a.y_position := by
  intro l
  induction l with
  | nil => intro i b hb; simp [renumber] at hb
  | cons e es ih =>
    intro i b hb
    simp only [renumber, List.mem_cons] at hb
    rcases hb with rfl | hb
    · exact ⟨e, by simp, rfl⟩
    · obtain ⟨a, ha, hy⟩ := ih (i + 1) b hb
      exact ⟨a, List.mem_cons_of_mem _ ha, hy⟩

theorem renumber_pairwise_y : ∀ (l : List GroundingElement) (i : ℤ),
    l.Pairwise (fun a b => a.y_position ≤ b.y_position) →
    (renumber i l).Pairwise (fun a b => a.y_position ≤ b.y_position) := by
  intro l
  induction l with
  | nil => intro i _; exact List.Pairwise.nil
  | cons e es ih =>
    intro i hpw
    obtain ⟨hhead, htail⟩ := List.pairwise_cons.mp hpw
    refine List.pairwise_cons.mpr ⟨?_, ih (i + 1) htail⟩
    intro b hb
    obtain ⟨a, ha, hy⟩ := renumber_mem_y es (i + 1) b hb
    rw [hy]
    exact hhead a ha

theorem sortRenumber_spec (l : List GroundingElement) :
    (renumber 1 (l.mergeSort fun a b =>
        decide (a.y_position ≤ b.y_position))).map (fun e => e.index) =
      (List.range (renumber 1 (l.mergeSort fun a b =>
        decide (a.y_position ≤ b.y_position))).length).map
          (fun k : ℕ => (k : ℤ) + 1) ∧
    (renumber 1 (l.mergeSort fun a b =>
        decide (a.y_position ≤ b.y_position))).Pairwise
      (fun a b => a.y_position ≤ b.y_position) := by
  constructor
  · rw [renumber_map_index, renumber_length]
    apply List.map_congr_left
    intro a _
    ring
  · have hsorted : (l.mergeSort fun a b =>
        decide (a.y_position ≤ b.y_position)).Pairwise
          (fun a b => a.y_position ≤ b.y_position) := by
      have := @List.sorted_mergeSort GroundingElement
        (fun a b => decide (a.y_position ≤ b.y_position))
        (by intro a b c h1 h2; simp at h1 h2 ⊢; omega)
        (by intro a b; simp; omega) l
      exact this.imp (fun {a b} hab => by simpa using hab)
    exact renumber_pairwise_y _ 1 hsorted

/-- C8: for every raw OCR output and scale factors, the parsed
image/figure annotations carry indices `1..n` in list order (a permutation
of `1..n` with no gaps assigned after sorting), and the list is ordered by
ascending top-edge `y`, regardless of the order in which the model emitted
the annotations. -/
theorem claim_C8_fig_indices (s : List Char) (scale_x scale_y : ℚ) :
    (parse_grounding_output s scale_x scale_y).map (fun e => e.index) =
      (List.range (parse_grounding_output s scale_x scale_y).length).map
        (fun k : ℕ => (k : ℤ) + 1) ∧
    (parse_grounding_output s scale_x scale_y).Pairwise
      (fun a b => a.y_position ≤ b.y_position) := by
  unfold parse_grounding_output
  exact sortRenumber_spec _

/-! ## Claim C5 — coordinate rescaling -/

theorem int_trunc_half (w : ℤ) (hw : 0 ≤ w) :
    int_trunc ((500 : ℚ) * ((w : ℚ) / 1000)) = ⌊(w : ℚ) / 2⌋ := by
  have h : (500 : ℚ) * ((w : ℚ) / 1000) = (w : ℚ) / 2 := by ring
  rw [h, int_trunc, if_pos (by positivity)]

theorem int_trunc_full (w : ℤ) (hw : 0 ≤ w) :
    int_trunc ((1000 : ℚ) * ((w : ℚ) / 1000)) = w := by
  have h : (1000 : ℚ) * ((w : ℚ) / 1000) = (w : ℚ) := by ring
  rw [h, int_trunc, if_pos (by exact_mod_cast hw)]
  exact Int.floor_intCast w

unseal findAnnots in
theorem findAnnots_sample :
    findAnnots sampleAnnot = [⟨"image".data, 500, 500, 1000, 1000⟩] := by
  decide

/-- C5 (amended): rescaling uses the factors `W/1000` and `H/1000`
computed from the rendered image's dimensions, and the map is linear and
(for nonzero dimensions) invertible on exact coordinates; but because the
code truncates each scaled coordinate with `int()`, the model box
`(500, 500, 1000, 1000)` maps to `(⌊W/2⌋, ⌊H/2⌋, W, H)` — equal to
`(W/2, H/2, W, H)` exactly only when `W` and `H` are even. -/
theorem claim_C5_rescale (W H : ℤ) (hW : 0 ≤ W) (hH : 0 ≤ H) :
    calculate_ollama_scale W H 1000 = ((W : ℚ) / 1000, (H : ℚ) / 1000) ∧
    parse_grounding_output sampleAnnot ((W : ℚ) / 1000) ((H : ℚ) / 1000) =
      [⟨"image".data, [⌊(W : ℚ) / 2⌋, ⌊(H : ℚ) / 2⌋, W, H], 1, ⌊(H : ℚ) / 2⌋⟩] ∧
    (W % 2 = 0 → 2 * ⌊(W : ℚ) / 2⌋ = W) ∧
    (∀ a b : ℚ, (a + b) * ((W : ℚ) / 1000) =
      a * ((W : ℚ) / 1000) + b * ((W : ℚ) / 1000)) ∧
    (W ≠ 0 → ∀ q : ℚ, (q * ((W : ℚ) / 1000)) * ((1000 : ℚ) / (W : ℚ)) = q) := by
  refine ⟨rfl, ?_, ?_, fun a b => by ring, ?_⟩
  · unfold parse_grounding_output
    rw [findAnnots_sample]
    rw [show (([⟨"image".data, 500, 500, 1000, 1000⟩] :
        List AnnotMatch).filter fun m => (m.ty.map Char.toLower) = "image".data ||
          (m.ty.map Char.toLower) = "figure".data) =
        [⟨"image".data, 500, 500, 1000, 1000⟩] from by decide]
    simp only [List.mapIdx_cons, List.mapIdx_nil, List.mergeSort_singleton,
      renumber]
    push_cast
    rw [int_trunc_half W hW, int_trunc_half H hH, int_trunc_full W hW,
      int_trunc_full H hH]
  · intro he
    obtain ⟨k, hk⟩ : ∃ k, W = 2 * k := ⟨W / 2, by omega⟩
    subst hk
    have hc : ((2 * k : ℤ) : ℚ) / 2 = (k : ℚ) := by push_cast; ring
    rw [hc, Int.floor_intCast]
  · intro hW0 q
    have hne : (W : ℚ) ≠ 0 := Int.cast_ne_zero.mpr hW0
    field_simp

unseal findAnnots List.mergeSort List.merge in
/-- Counterexample to C5 as stated: for a rendered width of 999 pixels the
model box `(500, 500, 1000, 1000)` maps to x₁ = int(500·999/1000) =
int(499.5) = 499, and 2·499 ≠ 999, so the result is not "exactly W/2". -/
theorem claim_C5_rescale_counterexample :
    calculate_ollama_scale 999 1000 1000 = ((999 : ℚ) / 1000, 1) ∧
    parse_grounding_output sampleAnnot ((999 : ℚ) / 1000) 1 =
      [⟨"image".data, [499, 500, 999, 1000], 1, 500⟩] ∧
    ¬ (2 * (499 : ℤ) = 999) := by
  refine ⟨?_, ?_, by decide⟩
  · unfold calculate_ollama_scale
    norm_num
  · unfold parse_grounding_output
    rw [findAnnots_sample]
    rw [show (([⟨"image".data, 500, 500, 1000, 1000⟩] :
        List AnnotMatch).filter fun m => (m.ty.map Char.toLower) = "image".data ||
          (m.ty.map Char.toLower) = "figure".data) =
        [⟨"image".data, 500, 500, 1000, 1000⟩] from by decide]
    simp only [List.mapIdx_cons, List.mapIdx_nil, List.mergeSort_singleton,
      renumber]
    push_cast
    norm_num [int_trunc]

/-- Witness for (amended) C5 at the even dimensions 800 × 600. -/
theorem claim_C5_rescale_witness :
    calculate_ollama_scale 800 600 1000 = ((800 : ℚ) / 1000, (600 : ℚ) / 1000) ∧
    parse_grounding_output sampleAnnot ((800 : ℚ) / 1000) ((600 : ℚ) / 1000) =
      [⟨"image".data, [⌊(800 : ℚ) / 2⌋, ⌊(600 : ℚ) / 2⌋, 800, 600], 1,
        ⌊(600 : ℚ) / 2⌋⟩] ∧
    ((800 : ℤ) % 2 = 0 → 2 * ⌊(800 : ℚ) / 2⌋ = 800) ∧
    (∀ a b : ℚ, (a + b) * ((800 : ℚ) / 1000) =
      a * ((800 : ℚ) / 1000) + b * ((800 : ℚ) / 1000)) ∧
    ((800 : ℤ) ≠ 0 → ∀ q : ℚ,
      (q * ((800 : ℚ) / 1000)) * ((1000 : ℚ) / (800 : ℚ)) = q) :=
  claim_C5_rescale 800 600 (by norm_num) (by norm_num)

/-! ## Claim C9 — tag cleaning -/

theorem litM_self_append : ∀ (pat r : List Char), litM pat (pat ++ r) = some r := by
  intro pat
  induction pat with
  | nil => intro r; rfl
  | cons c cs ih =>
    intro r
    simp only [List.cons_append, litM, if_pos rfl]
    exact ih r

theorem span_exact {p : Char → Bool} {a r : List Char} {b : Char} {bs : List Char}
    (ha : ∀ c ∈ a, p c = true) (hb : p b = false) (hshape : r = b :: bs) :
    (a ++ r).takeWhile p = a ∧ (a ++ r).dropWhile p = r := by
  subst hshape
  induction a with
  | nil =>
    constructor
    · simp [List.takeWhile_cons, hb]
    · simp [List.dropWhile_cons, hb]
  | cons c a ih =>
    have hc : p c = true := ha c (by simp)
    obtain ⟨iht, ihd⟩ := ih (fun c hc' => ha c (List.mem_cons_of_mem _ hc'))
    constructor
    · simp only [List.cons_append, List.takeWhile_cons, hc, if_true]
      rw [iht]
    · simp only [List.cons_append, List.dropWhile_cons, hc, if_true]
      exact ihd

theorem takeWord_eq {l w r : List Char} (hw : l.takeWhile isWordChar = w)
    (hr : l.dropWhile isWordChar = r) (hne : w ≠ []) :
    takeWord l = some (w, r) := by
  unfold takeWord
  rw [hw, hr]
  rcases w with _ | ⟨c, cs⟩
  · exact absurd rfl hne
  · rfl

theorem takeDigits_eq {l w r : List Char} (hw : l.takeWhile isDigitChar = w)
    (hr : l.dropWhile isDigitChar = r) (hne : w ≠ []) :
    takeDigits l = some (w, r) := by
  unfold takeDigits
  rw [hw, hr]
  rcases w with _ | ⟨c, cs⟩
  · exact absurd rfl hne
  · rfl

theorem digit_not_space {c : Char} (h : isDigitChar c = true) :
    isSpaceChar c = false := by
  by_contra hs
  rw [Bool.not_eq_false] at hs
  unfold isSpaceChar at hs
  simp only [Bool.or_eq_true, decide_eq_true_eq] at hs
  rcases hs with ((((h1 | h1) | h1) | h1) | h1) | h1 <;>
    (subst h1; exact absurd h (by decide))

theorem dropSpaces_eq_self {b : Char} {bs : List Char}
    (hb : isSpaceChar b = false) : dropSpaces (b :: bs) = b :: bs := by
  simp [dropSpaces, List.dropWhile_cons, hb]

theorem matchAnnot_annotChars (ty d1 d2 d3 d4 r : List Char)
    (hty : ty ≠ []) (htyw : ∀ c ∈ ty, isWordChar c = true)
    (h1 : d1 ≠ []) (h1d : ∀ c ∈ d1, isDigitChar c = true)
    (h2 : d2 ≠ []) (h2d : ∀ c ∈ d2, isDigitChar c = true)
    (h3 : d3 ≠ []) (h3d : ∀ c ∈ d3, isDigitChar c = true)
    (h4 : d4 ≠ []) (h4d : ∀ c ∈ d4, isDigitChar c = true) :
    matchAnnotAt (annotChars ty d1 d2 d3 d4 ++ r) =
      some (⟨ty, digitsVal d1, digitsVal d2, digitsVal d3, digitsVal d4⟩, r) := by
  rcases d2 with _ | ⟨e2, es2⟩
  · exact absurd rfl h2
  rcases d3 with _ | ⟨e3, es3⟩
  · exact absurd rfl h3
  rcases d4 with _ | ⟨e4, es4⟩
  · exact absurd rfl h4
  have hsh : annotChars ty d1 (e2 :: es2) (e3 :: es3) (e4 :: es4) ++ r =
      "<|ref|>".data ++ (ty ++ ("<|/ref|><|det|>[[".data ++ (d1 ++ ([','] ++
        ((e2 :: es2) ++ ([','] ++ ((e3 :: es3) ++ ([','] ++ ((e4 :: es4) ++
          ("]]<|/det|>".data ++ r)))))))))) := by
    simp [annotChars, List.append_assoc]
  unfold matchAnnotAt
  rw [hsh, litM_self_append, Option.some_bind]
  obtain ⟨st1, sd1⟩ := span_exact htyw (by decide)
    (rfl : "<|/ref|><|det|>[[".data ++ (d1 ++ ([','] ++ ((e2 :: es2) ++ ([','] ++
      ((e3 :: es3) ++ ([','] ++ ((e4 :: es4) ++ ("]]<|/det|>".data ++ r)))))))) =
      '<' :: _)
  rw [takeWord_eq st1 sd1 hty, Option.some_bind, litM_self_append,
    Option.some_bind]
  obtain ⟨st2, sd2⟩ := span_exact h1d (by decide)
    (rfl : [','] ++ ((e2 :: es2) ++ ([','] ++ ((e3 :: es3) ++ ([','] ++
      ((e4 :: es4) ++ ("]]<|/det|>".data ++ r)))))) = ',' :: _)
  rw [takeDigits_eq st2 sd2 h1, Option.some_bind]
  rw [show litM ",".data ([','] ++ ((e2 :: es2) ++ ([','] ++ ((e3 :: es3) ++
      ([','] ++ ((e4 :: es4) ++ ("]]<|/det|>".data ++ r))))))) =
      some ((e2 :: es2) ++ ([','] ++ ((e3 :: es3) ++ ([','] ++ ((e4 :: es4) ++
        ("]]<|/det|>".data ++ r)))))) from litM_self_append [','] _,
    Option.some_bind]
  rw [show dropSpaces ((e2 :: es2) ++ ([','] ++ ((e3 :: es3) ++ ([','] ++
      ((e4 :: es4) ++ ("]]<|/det|>".data ++ r)))))) = (e2 :: es2) ++ ([','] ++
      ((e3 :: es3) ++ ([','] ++ ((e4 :: es4) ++ ("]]<|/det|>".data ++ r)))))
    from dropSpaces_eq_self (digit_not_space (h2d e2 (by simp)))]
  obtain ⟨st3, sd3⟩ := span_exact (fun c hc => h2d c hc) (by decide)
    (rfl : [','] ++ ((e3 :: es3) ++ ([','] ++ ((e4 :: es4) ++
      ("]]<|/det|>".data ++ r)))) = ',' :: _)
  rw [takeDigits_eq st3 sd3 (by simp), Option.some_bind]
  rw [show litM ",".data ([','] ++ ((e3 :: es3) ++ ([','] ++ ((e4 :: es4) ++
      ("]]<|/det|>".data ++ r))))) = some ((e3 :: es3) ++ ([','] ++
      ((e4 :: es4) ++ ("]]<|/det|>".data ++ r)))) from litM_self_append [','] _,
    Option.some_bind]
  rw [show dropSpaces ((e3 :: es3) ++ ([','] ++ ((e4 :: es4) ++
      ("]]<|/det|>".data ++ r)))) = (e3 :: es3) ++ ([','] ++ ((e4 :: es4) ++
      ("]]<|/det|>".data ++ r)))
    from dropSpaces_eq_self (digit_not_space (h3d e3 (by simp)))]
  obtain ⟨st4, sd4⟩ := span_exact (fun c hc => h3d c hc) (by decide)
    (rfl : [','] ++ ((e4 :: es4) ++ ("]]<|/det|>".data ++ r)) = ',' :: _)
  rw [takeDigits_eq st4 sd4 (by simp), Option.some_bind]
  rw [show litM ",".data ([','] ++ ((e4 :: es4) ++ ("]]<|/det|>".data ++ r))) =
      some ((e4 :: es4) ++ ("]]<|/det|>".data ++ r)) from litM_self_append [','] _,
    Option.some_bind]
  rw [show dropSpaces ((e4 :: es4) ++ ("]]<|/det|>".data ++ r)) =
      (e4 :: es4) ++ ("]]<|/det|>".data ++ r)
    from dropSpaces_eq_self (digit_not_space (h4d e4 (by simp)))]
  obtain ⟨st5, sd5⟩ := span_exact (fun c hc => h4d c hc) (by decide)
    (rfl : "]]<|/det|>".data ++ r = ']' :: _)
  rw [takeDigits_eq st5 sd5 (by simp), Option.some_bind, litM_self_append]
  rfl

theorem matchAnnotAt_none_head {c : Char} {cs : List Char} (hc : c ≠ '<') :
    matchAnnotAt (c :: cs) = none := by
  unfold matchAnnotAt
  rw [show ("<|ref|>".data : List Char) = '<' :: "|ref|>".data from rfl]
  rw [show litM ('<' :: "|ref|>".data) (c :: cs) = none from by
    simp only [litM, if_neg hc]]
  rfl

theorem matchTagAt_none_head {c : Char} {cs : List Char} (hc : c ≠ '<') :
    matchTagAt (c :: cs) = none := by
  rcases cs with _ | ⟨c2, cs2⟩
  · rfl
  · have hno : ¬ (c = '<' ∧ c2 = '|') := fun hand => hc hand.1
    simp [matchTagAt, hno]

theorem removeAnnots_cons_some {c : Char} {cs : List Char} {m : AnnotMatch}
    {rest : List Char} (h : matchAnnotAt (c :: cs) = some (m, rest)) :
    removeAnnots (c :: cs) = removeAnnots (dropSpaces rest) := by
  conv_lhs => unfold removeAnnots
  split
  · rename_i m' rest' heq
    rw [h] at heq
    injection heq with heq1
    simp only [Prod.mk.injEq] at heq1
    obtain ⟨h1, h2⟩ := heq1
    subst h2
    rfl
  · rename_i heq
    rw [h] at heq
    exact absurd heq (by simp)

theorem removeAnnots_cons_none {c : Char} {cs : List Char}
    (h : matchAnnotAt (c :: cs) = none) :
    removeAnnots (c :: cs) = c :: removeAnnots cs := by
  conv_lhs => unfold removeAnnots
  split
  · rename_i m' rest' heq
    rw [h] at heq
    exact absurd heq (by simp)
  · rfl

theorem removeAnnots_match {l : List Char} {m : AnnotMatch} {rest : List Char}
    (hl : l ≠ []) (h : matchAnnotAt l = some (m, rest)) :
    removeAnnots l = removeAnnots (dropSpaces rest) := by
  rcases l with _ | ⟨c, cs⟩
  · exact absurd rfl hl
  · exact removeAnnots_cons_some h

theorem removeTags_cons_none {c : Char} {cs : List Char}
    (h : matchTagAt (c :: cs) = none) :
    removeTags (c :: cs) = c :: removeTags cs := by
  conv_lhs => unfold removeTags
  split
  · rename_i rest' heq
    rw [h] at heq
    exact absurd heq (by simp)
  · rfl

theorem removeTags_self : ∀ {l : List Char}, (∀ x ∈ l, x ≠ '<') →
    removeTags l = l := by
  intro l
  induction l with
  | nil => intro _; simp [removeTags]
  | cons c cs ih =>
    intro h
    rw [removeTags_cons_none (matchTagAt_none_head (h c (by simp)))]
    rw [ih (fun x hx => h x (List.mem_cons_of_mem _ hx))]

theorem pyStrip_subset {l : List Char} : ∀ x ∈ pyStrip l, x ∈ l := by
  intro x hx
  unfold pyStrip at hx
  rw [List.mem_reverse] at hx
  have hx2 := (List.dropWhile_sublist isSpaceChar).subset hx
  rw [List.mem_reverse] at hx2
  exact (List.dropWhile_sublist isSpaceChar).subset hx2

theorem cleanShape_removeAnnots {s : List Char} (hs : CleanShape s) :
    (∀ x ∈ removeAnnots s, x ≠ '<') ∧
    (∀ x ∈ removeAnnots (dropSpaces s), x ≠ '<') := by
  induction hs with
  | nil =>
    constructor <;> intro x hx <;> simp [removeAnnots, dropSpaces] at hx
  | chr c l hc hl ih =>
    have hA : removeAnnots (c :: l) = c :: removeAnnots l :=
      removeAnnots_cons_none (matchAnnotAt_none_head hc)
    have hfst : ∀ x ∈ removeAnnots (c :: l), x ≠ '<' := by
      rw [hA]
      intro x hx
      rcases List.mem_cons.mp hx with rfl | hx
      · exact hc
      · exact ih.1 x hx
    refine ⟨hfst, ?_⟩
    by_cases hsp : isSpaceChar c = true
    · rw [show dropSpaces (c :: l) = dropSpaces l from by
        simp [dropSpaces, List.dropWhile_cons, hsp]]
      exact ih.2
    · rw [dropSpaces_eq_self (by revert hsp; cases isSpaceChar c <;> simp)]
      exact hfst
  | ann ty d1 d2 d3 d4 l hty htyw h1 h1d h2 h2d h3 h3d h4 h4d hl ih =>
    obtain ⟨bs, hbs⟩ : ∃ bs, annotChars ty d1 d2 d3 d4 ++ l = '<' :: bs :=
      ⟨_, rfl⟩
    have hfst : ∀ x ∈ removeAnnots (annotChars ty d1 d2 d3 d4 ++ l),
        x ≠ '<' := by
      rw [removeAnnots_match (by rw [hbs]; simp)
        (matchAnnot_annotChars ty d1 d2 d3 d4 l hty htyw h1 h1d h2 h2d h3 h3d
          h4 h4d)]
      exact ih.2
    refine ⟨hfst, ?_⟩
    rw [hbs, dropSpaces_eq_self (by decide), ← hbs]
    exact hfst

/-- C9 (amended): for raw OCR output in which `<` occurs only as the
start of complete well-formed annotations (`CleanShape`), the cleaned
text contains no `<` at all, hence no occurrence of the annotation
pattern and no stray `<|...|>` tag marker at any position.  (On arbitrary
strings the claim fails: the single-pass `re.sub`s can splice adjacent
fragments into a new tag marker — see the counterexample.) -/
theorem claim_C9_clean (s : List Char) (hs : CleanShape s) :
    (∀ x ∈ clean_grounding_tags s, x ≠ '<') ∧
    (∀ pre suf : List Char, clean_grounding_tags s = pre ++ suf →
      matchAnnotAt suf = none ∧ matchTagAt suf = none) := by
  have h1 := (cleanShape_removeAnnots hs).1
  have h2 : removeTags (removeAnnots s) = removeAnnots s := removeTags_self h1
  have hclean : ∀ x ∈ clean_grounding_tags s, x ≠ '<' := by
    intro x hx
    unfold clean_grounding_tags at hx
    rw [h2] at hx
    exact h1 x (pyStrip_subset x hx)
  refine ⟨hclean, ?_⟩
  intro pre suf hsplit
  rcases suf with _ | ⟨x, suf'⟩
  · exact ⟨rfl, rfl⟩
  · have hx : x ∈ clean_grounding_tags s := by
      rw [hsplit]
      exact List.mem_append_right _ (by simp)
    have hxne : x ≠ '<' := hclean x hx
    exact ⟨matchAnnotAt_none_head hxne, matchTagAt_none_head hxne⟩

unseal removeAnnots removeTags in
/-- Counterexample to C9 as stated: the input
`<|ref|>image<|/ref|><|det|>[[1,2,3,4]]<|/det|><<|q|>|a|>` contains the
annotation tag pattern, yet cleaning it yields exactly `<|a|>` — a stray
tag marker spliced together by the removal passes, which itself matches
the `<\|[^>]+\|>` tag pattern. -/
theorem claim_C9_clean_counterexample :
    (∃ m rest, matchAnnotAt
      "<|ref|>image<|/ref|><|det|>[[1,2,3,4]]<|/det|><<|q|>|a|>".data =
        some (m, rest)) ∧
    clean_grounding_tags
      "<|ref|>image<|/ref|><|det|>[[1,2,3,4]]<|/det|><<|q|>|a|>".data =
      "<|a|>".data ∧
    (∃ rest, matchTagAt "<|a|>".data = some rest) :=
  ⟨⟨⟨"image".data, 1, 2, 3, 4⟩, "<<|q|>|a|>".data, by decide⟩, by decide,
    ⟨[], by decide⟩⟩

/-- Witness for (amended) C9 at `c9sample`. -/
theorem claim_C9_clean_witness :
    (∀ x ∈ clean_grounding_tags c9sample, x ≠ '<') ∧
    (∀ pre suf : List Char, clean_grounding_tags c9sample = pre ++ suf →
      matchAnnotAt suf = none ∧ matchTagAt suf = none) :=
  claim_C9_clean c9sample
    (CleanShape.chr 'a' _ (by decide)
      (CleanShape.ann "image".data "10".data "20".data "30".data "40".data _
        (by decide) (by decide) (by decide) (by decide) (by decide)
        (by decide) (by decide) (by decide) (by decide) (by decide)
        (CleanShape.chr ' ' _ (by decide)
          (CleanShape.chr 'b' _ (by decide) CleanShape.nil))))

/-! ## Claims C1 and C6 — orchestrator terminal states -/

theorem mapGet_mapSet_self {α : Type} (m : List (String × α)) (k : String)
    (v : α) : mapGet (mapSet m k v) k = some v := by
  induction m with
  | nil =>
    simp [mapSet, mapGet, List.find?]
  | cons p ps ih =>
    by_cases hk : p.1 = k
    · have hsome : ((p :: ps).find? fun q => q.1 = k).isSome = true := by
        simp [List.find?_cons, hk]
      simp only [mapSet, hsome, if_true, List.map_cons, if_pos hk]
      simp [mapGet, List.find?_cons]
    · rcases htail : (ps.find? fun q => q.1 = k) with _ | q
      · have hnone : ((p :: ps).find? fun q => q.1 = k).isSome = false := by
          simp [List.find?_cons, hk, htail]
        simp only [mapSet, hnone, Bool.false_eq_true, if_false, List.cons_append]
        have := ih
        simp only [mapSet, htail, Option.isSome_none, Bool.false_eq_true,
          if_false] at this
        simp [mapGet, List.find?_cons, hk] at this ⊢
        exact this
      · have hsome : ((p :: ps).find? fun q => q.1 = k).isSome = true := by
          simp [List.find?_cons, hk, htail]
        simp only [mapSet, hsome, if_true, List.map_cons, if_neg hk]
        have := ih
        simp only [mapSet, htail, Option.isSome_some, if_true] at this
        simp [mapGet, List.find?_cons, hk] at this ⊢
        exact this

theorem mapGet_mapDel_self {α : Type} (m : List (String × α)) (k : String) :
    mapGet (mapDel m k) k = none := by
  unfold mapGet mapDel
  rw [List.find?_eq_none.mpr]
  · rfl
  · intro p hp
    rcases List.mem_filter.mp hp with ⟨_, hkeep⟩
    simpa using hkeep

theorem mapGet_updJob_ps (st : ServerState) (token : String)
    (f : JobRecord → JobRecord) :
    mapGet (updJob st token f).processing_status token =
      (mapGet st.processing_status token).map f := by
  unfold updJob
  rcases h : mapGet st.processing_status token with _ | r
  · simp [h]
  · simp [h, mapGet_mapSet_self]

theorem updJob_flags (st : ServerState) (token : String)
    (f : JobRecord → JobRecord) :
    (updJob st token f).cancellation_flags = st.cancellation_flags := by
  unfold updJob
  rcases mapGet st.processing_status token with _ | r <;> rfl

theorem updJob_meta (st : ServerState) (token : String)
    (f : JobRecord → JobRecord) :
    (updJob st token f).meta = st.meta := by
  unfold updJob
  rcases mapGet st.processing_status token with _ | r <;> rfl

theorem mapGet_add_log (st : ServerState) (token : String) (msg : String) :
    mapGet (add_log st token msg).processing_status token =
      (mapGet st.processing_status token).map
        (fun r => { r with logs := r.logs ++ [msg] }) :=
  mapGet_updJob_ps st token _

theorem mapGet_set_stage (st : ServerState) (token : String) (s : String) :
    mapGet (set_stage st token s).processing_status token =
      (mapGet st.processing_status token).map (fun r => { r with stage := s }) :=
  mapGet_updJob_ps st token _

theorem mapGet_foldl_addlog (token : String) :
    ∀ (msgs : List String) (st : ServerState),
    mapGet ((msgs.foldl (fun s m => add_log s token m) st)).processing_status
        token =
      (mapGet st.processing_status token).map
        (fun r => { r with logs := r.logs ++ msgs }) := by
  intro msgs
  induction msgs with
  | nil =>
    intro st
    rcases h : mapGet st.processing_status token with _ | r
    · simp [h]
    · simp [h]
  | cons m ms ih =>
    intro st
    rw [List.foldl_cons, ih (add_log st token m), mapGet_add_log]
    rcases h : mapGet st.processing_status token with _ | r
    · simp
    · simp

theorem foldl_addlog_flags (token : String) :
    ∀ (msgs : List String) (st : ServerState),
    ((msgs.foldl (fun s m => add_log s token m) st)).cancellation_flags =
      st.cancellation_flags := by
  intro msgs
  induction msgs with
  | nil => intro st; rfl
  | cons m ms ih =>
    intro st
    rw [List.foldl_cons, ih, add_log, updJob_flags]

theorem foldl_addlog_meta (token : String) :
    ∀ (msgs : List String) (st : ServerState),
    ((msgs.foldl (fun s m => add_log s token m) st)).meta = st.meta := by
  intro msgs
  induction msgs with
  | nil => intro st; rfl
  | cons m ms ih =>
    intro st
    rw [List.foldl_cons, ih, add_log, updJob_meta]

theorem update_meta_write_ps (st : ServerState) (token fname lang : String) :
    (update_meta_write st token fname lang).processing_status =
      st.processing_status := by
  unfold update_meta_write
  rcases mapGet st.meta token with _ | m <;> rfl

theorem mapGet_update_meta_write (st : ServerState) (token fname lang : String) :
    mapGet (update_meta_write st token fname lang).meta token =
      (mapGet st.meta token).map
        (fun m => { m with translated_filename := some fname, detected_language := some lang }) := by
  unfold update_meta_write
  rcases h : mapGet st.meta token with _ | m
  · simp [h]
  · simp [h, mapGet_mapSet_self]

theorem getLast?_cons_append {α : Type} (a : α) (l : List α) (x : α) :
    (a :: (l ++ [x])).getLast? = some x := by
  rw [← List.cons_append, List.getLast?_concat]

/-- C1 (amended): a job that reaches the OCR stage (no cancellation at the
post-scan checkpoint) and whose range extraction returns an empty list
never ends `complete`: if cancellation was requested by the
post-extraction checkpoint it ends `cancelled`, and otherwise the
`ValueError` routes it to `status = error`, `stage = error` with
`"[ERROR] OCR extraction returned no pages"` appended as the last log
line. -/
theorem claim_C1_empty_extraction (o : OrchOracle) (token : String)
    (st0 : ServerState) (r0 : JobRecord)
    (hmem : mapGet st0.processing_status token = some r0)
    (hempty : o.extraction = Except.ok [])
    (hc0 : o.c0 = false) :
    ∃ r, mapGet (process_manual_background o token st0).processing_status
        token = some r ∧
      r.status ≠ "complete" ∧
      (o.c1 = false → r.status = "error" ∧ r.stage = "error" ∧
        r.logs.getLast? = some "[ERROR] OCR extraction returned no pages") ∧
      (o.c1 = true → r.status = "cancelled" ∧ r.stage = "cancelled") := by
  unfold process_manual_background orchTry
  rw [hc0, hempty]
  rcases hsec : o.section_info with _ | ⟨l, sp, ep⟩ <;>
    rcases hc1v : o.c1 with _ | _ <;>
      simp only [hsec, hc1v, Bool.false_eq_true, if_false, if_true,
        cancelExit, mapGet_updJob_ps, mapGet_add_log, mapGet_set_stage,
        mapGet_foldl_addlog, hmem, Option.map_some'] <;>
      refine ⟨_, rfl, ?_, ?_, ?_⟩ <;>
      simp [getLast?_cons_append] <;>
      decide

/-- Counterexample to C1 as stated: a job whose extraction returned an
empty list but that was cancelled at the post-extraction checkpoint ends
`cancelled`, not `error`. -/
theorem claim_C1_empty_extraction_counterexample :
    (mapGet (process_manual_background oC1 "t" stC1).processing_status
      "t").map (fun r => (r.status, r.stage)) =
      some ("cancelled", "cancelled") := by
  decide

/-- Witness for (amended) C1 at a concrete uncancelled empty-extraction
run. -/
theorem claim_C1_empty_extraction_witness :
    ∃ r, mapGet (process_manual_background oC1w "t" stC1).processing_status
        "t" = some r ∧
      r.status ≠ "complete" ∧
      (oC1w.c1 = false → r.status = "error" ∧ r.stage = "error" ∧
        r.logs.getLast? = some "[ERROR] OCR extraction returned no pages") ∧
      (oC1w.c1 = true → r.status = "cancelled" ∧ r.stage = "cancelled") :=
  claim_C1_empty_extraction oC1w "t" stC1
    ⟨"processing", "starting", [], 0, none, none, none⟩ (by decide) rfl rfl

theorem add_log_meta (st : ServerState) (token msg : String) :
    (add_log st token msg).meta = st.meta :=
  updJob_meta st token _

theorem set_stage_meta (st : ServerState) (token s : String) :
    (set_stage st token s).meta = st.meta :=
  updJob_meta st token _

/-- C6 (amended): a run with no cancellation, a non-empty extraction and a
successful reference generation sets the job record to
`stage = complete`, `status = complete` with the detected language, the
translated flag and the output filename recorded in it, and the
best-effort durable-metadata write stores the output filename and the
detected language — but not the translated flag, which stays whatever it
was before (the source's `update_meta` call only passes
`translated_filename` and `detected_language`). -/
theorem claim_C6_completion (o : OrchOracle) (token : String)
    (st0 : ServerState) (r0 : JobRecord) (m0 : MetaRecord)
    (hmem : mapGet st0.processing_status token = some r0)
    (hmeta : mapGet st0.meta token = some m0)
    (hc0 : o.c0 = false) (hc1 : o.c1 = false) (hc2 : o.c2 = false)
    (hc3 : o.c3 = false)
    (results : List OCRPageResult) (hres : o.extraction = Except.ok results)
    (hne : results ≠ [])
    (hgen : o.generate_result = Except.ok ())
    (hupd : o.update_meta_ok = true) :
    (∃ r, mapGet (process_manual_background o token st0).processing_status
        token = some r ∧
      r.status = "complete" ∧ r.stage = "complete" ∧
      r.detected_language = some (orchDetected o) ∧
      r.translated = some (decide ¬ orchIsEnglish o) ∧
      r.output_filename = some o.reference_name) ∧
    (∃ m, mapGet (process_manual_background o token st0).meta token = some m ∧
      m.translated_filename = some o.reference_name ∧
      m.detected_language = some (orchDetected o) ∧
      m.translated = m0.translated) := by
  unfold process_manual_background orchTry
  rw [hc0, hres, hc1, hc2, hc3, hgen, hupd]
  rcases hsec : o.section_info with _ | ⟨l, sp, ep⟩
  · have hD : orchDetected o = o.detect_language_result := by
      simp [orchDetected, orchDetected0, hsec]
    have hE : orchIsEnglish o ↔
        (strToLower o.detect_language_result = "en" ∨
         strToLower o.detect_language_result = "english") := by
      rw [orchIsEnglish, hD]
    by_cases hen : (strToLower o.detect_language_result = "en" ∨
        strToLower o.detect_language_result = "english") <;>
      simp only [hsec, orchDetected0, hne, hen, hD, eq_self_iff_true,
        if_true, if_false, iff_false, not_false_iff, Bool.false_eq_true,
        add_log_meta, set_stage_meta, mapGet_updJob_ps, mapGet_add_log,
        mapGet_set_stage, mapGet_foldl_addlog, foldl_addlog_meta,
        update_meta_write_ps, mapGet_update_meta_write, updJob_meta,
        hmem, hmeta, Option.map_some'] <;>
      refine ⟨⟨_, rfl, rfl, rfl, rfl, ?_, rfl⟩, _, rfl, rfl, rfl, rfl⟩ <;>
      simp [hE, hen]
  · by_cases hd : l = "unknown"
    · subst hd
      have hD : orchDetected o = o.detect_language_result := by
        simp [orchDetected, orchDetected0, hsec]
      have hE : orchIsEnglish o ↔
          (strToLower o.detect_language_result = "en" ∨
           strToLower o.detect_language_result = "english") := by
        rw [orchIsEnglish, hD]
      by_cases hen : (strToLower o.detect_language_result = "en" ∨
          strToLower o.detect_language_result = "english") <;>
        simp only [hsec, orchDetected0, hne, hen, hD, eq_self_iff_true,
          if_true, if_false, iff_false, not_false_iff, Bool.false_eq_true,
          add_log_meta, set_stage_meta, mapGet_updJob_ps, mapGet_add_log,
          mapGet_set_stage, mapGet_foldl_addlog, foldl_addlog_meta,
          update_meta_write_ps, mapGet_update_meta_write, updJob_meta,
          hmem, hmeta, Option.map_some'] <;>
        refine ⟨⟨_, rfl, rfl, rfl, rfl, ?_, rfl⟩, _, rfl, rfl, rfl, rfl⟩ <;>
        simp [hE, hen]
    · have hD : orchDetected o = l := by
        simp [orchDetected, orchDetected0, hsec, hd]
      have hE : orchIsEnglish o ↔
          (strToLower l = "en" ∨ strToLower l = "english") := by
        rw [orchIsEnglish, hD]
      by_cases hen : (strToLower l = "en" ∨ strToLower l = "english") <;>
        simp only [hsec, orchDetected0, hne, hen, hd, hD, eq_self_iff_true,
          if_true, if_false, iff_false, not_false_iff, Bool.false_eq_true,
          add_log_meta, set_stage_meta, mapGet_updJob_ps, mapGet_add_log,
          mapGet_set_stage, mapGet_foldl_addlog, foldl_addlog_meta,
          update_meta_write_ps, mapGet_update_meta_write, updJob_meta,
          hmem, hmeta, Option.map_some'] <;>
        refine ⟨⟨_, rfl, rfl, rfl, rfl, ?_, rfl⟩, _, rfl, rfl, rfl, rfl⟩ <;>
        simp [hE, hen]


/-- Counterexample to C6 as stated: on normal completion of a translated
(German) job the durable metadata receives the output filename and the
detected language but *not* whether translation occurred — the job record
says `translated = true` while the durable metadata's `translated` key is
still absent; the claim's "persists … whether translation occurred … into
the token's durable metadata" fails.  (The durable write also happens
after, not before, `status`/`stage` are set to `complete`.) -/
theorem claim_C6_completion_counterexample :
    (mapGet (process_manual_background oC6 "t" stC6).processing_status
      "t").map (fun r => (r.status, r.translated)) =
        some ("complete", some true) ∧
    mapGet (process_manual_background oC6 "t" stC6).meta "t" =
      some ⟨some "ref.md", some "de", none⟩ := by
  decide

/-- Witness for (amended) C6 at the concrete German-section run. -/
theorem claim_C6_completion_witness :
    (∃ r, mapGet (process_manual_background oC6 "t" stC6).processing_status
        "t" = some r ∧
      r.status = "complete" ∧ r.stage = "complete" ∧
      r.detected_language = some (orchDetected oC6) ∧
      r.translated = some (decide ¬ orchIsEnglish oC6) ∧
      r.output_filename = some oC6.reference_name) ∧
    (∃ m, mapGet (process_manual_background oC6 "t" stC6).meta "t" = some m ∧
      m.translated_filename = some oC6.reference_name ∧
      m.detected_language = some (orchDetected oC6) ∧
      m.translated = (⟨none, none, none⟩ : MetaRecord).translated) :=
  claim_C6_completion oC6 "t" stC6
    ⟨"processing", "starting", [], 0, none, none, none⟩ ⟨none, none, none⟩
    (by decide) (by decide) rfl rfl rfl rfl [⟨[], 0, []⟩] rfl (by decide)
    rfl rfl
